import Mathlib

/-!
# goscorecardcheck: dependency policy evaluation

A shallow embedding of `processor.go` (`Processor.isBlockedPackage`),
`internal/scorecard/getter.go` (`Getter.Get`, `getScoreForDependency`) and
`internal/scorecard/dependency.go` (`ParseDependencyForImportPath`).

Conventions of the embedding.

* Go `string` values are Lean `String`s; the functions of Go's `strings`
  package are defined on the character lists of their arguments.
* `float64` values are modelled by `Float64`: a finite value is a rational,
  and the three special values are kept, with the IEEE comparison.
* Libraries outside the repository (`doublestar.Match`, `strings.ToLower`,
  `vcs.RepoRootForImportPath`, `url.Parse`, the HTTP transport and the JSON
  decoder) are fields of `Extern`; every definition takes an `Extern`.
* The two `sync.Map` memo tables and the logs of the calls that left the
  process are the fields of `State`, threaded through the stateful functions.
-/

set_option linter.dupNamespace false

namespace GoScorecardCheck

/-! ## float64 -/

/-- Values of Go's `float64`: a finite value (a rational), the two infinities
and NaN. -/
inductive Float64 where
  | nan
  | negInf
  | finite (q : ℚ)
  | posInf
  deriving DecidableEq

namespace Float64

/-- The zero value of a `float64` variable (`var s float64`). -/
def zero : Float64 := finite 0

/-- Go's `<` on `float64`: false as soon as one side is NaN. -/
def lt : Float64 → Float64 → Bool
  | finite a, finite b => decide (a < b)
  | negInf, finite _ => true
  | negInf, posInf => true
  | finite _, posInf => true
  | _, _ => false

/-- A value strictly above zero (NaN is not). -/
def positive (x : Float64) : Bool := lt zero x

end Float64

/-! ## Go's `strings` package -/

/-- The list version of `strings.Index`: the first position at which `sep`
occurs in `s`. -/
def indexList (s sep : List Char) : Option Nat :=
  match s with
  | [] => if sep = [] then some 0 else none
  | c :: cs =>
    if sep.isPrefixOf (c :: cs) then some 0
    else (indexList cs sep).map (· + 1)

/-- Model of `strings.Contains(s, substr)`. -/
def stringsContains (s substr : String) : Bool :=
  (indexList s.data substr.data).isSome

/-- Model of `strings.HasPrefix(s, prefix)`. -/
def stringsHasPrefix (s pre : String) : Bool :=
  pre.data.isPrefixOf s.data

/-- Model of `strings.Cut(s, sep)`: the text before and after the first
occurrence of `sep`, and whether `sep` was found. -/
def stringsCut (s sep : String) : String × String × Bool :=
  match indexList s.data sep.data with
  | some i => (⟨s.data.take i⟩, ⟨s.data.drop (i + sep.data.length)⟩, true)
  | none => (s, "", false)

/-- Leading characters of `cutset` removed. -/
def trimLeftList (cutset : List Char) : List Char → List Char
  | [] => []
  | c :: cs => if c ∈ cutset then trimLeftList cutset cs else c :: cs

/-- Model of `strings.Trim(s, cutset)`: all leading and trailing characters
contained in `cutset` removed. -/
def stringsTrim (s cutset : String) : String :=
  ⟨(trimLeftList cutset.data (trimLeftList cutset.data s.data).reverse).reverse⟩

/-! ## Data model -/

deriving instance DecidableEq for Except

/-- A rule of a policy (`Rule` in `processor.go`). -/
structure Rule where
  Check : String
  MinimumScore : Float64
  deriving DecidableEq

/-- A policy (`Policy` in `processor.go`). -/
structure Policy where
  Description : String
  Include : List String
  Exclude : List String
  Rules : List Rule
  deriving DecidableEq

/-- The configuration (`Configuration` in `processor.go`). -/
structure Configuration where
  Policies : List Policy
  deriving DecidableEq

/-- A check of a scorecard (`Check` in `getter.go`); the fields `Details` and
`Documentation` are never read by the code embedded here. -/
structure Check where
  Name : String
  Reason : String
  Score : Float64
  deriving DecidableEq

/-- A scorecard (`Score` in `getter.go`). -/
structure Score where
  Score : Float64
  Checks : List Check
  deriving DecidableEq

/-- A dependency (`Dependency` in `dependency.go`). Go compares two values of
this struct type field by field, all five fields. -/
structure Dependency where
  Commit : String
  Platform : String
  Org : String
  Repo : String
  Root : String
  deriving DecidableEq

/-- The Go `error` values built by the embedded code. -/
inductive Error where
  /-- The error of `fmt.Errorf("invalid package match %q: %w", pattern, err)`. -/
  | invalidPackageMatch (pattern : String)
  /-- An error of `vcs.RepoRootForImportPath`, returned as it is. -/
  | repoRoot (msg : String)
  /-- An error of `url.Parse`, returned as it is. -/
  | urlParse (msg : String)
  /-- The error "could not create api request". -/
  | createRequest (msg : String)
  /-- The error "error performing scorecard api request". -/
  | performRequest (msg : String)
  /-- The error "no scorecard for import %s", with `dep.Root`. -/
  | noScorecard (root : String)
  /-- The error "scorecard api gave status code %d". -/
  | statusCode (code : Nat)
  /-- The error "failed to unmarshal scorecard response". -/
  | unmarshal (msg : String)
  deriving DecidableEq

/-- A `context.Context`, identified by a tag the transport may inspect. -/
abbrev Context := Nat

/-- The fields of `vcs.RepoRoot` that are read. -/
structure RepoRoot where
  Repo : String
  Root : String
  deriving DecidableEq

/-- The fields of `url.URL` that are read and written. -/
structure URL where
  Host : String
  Path : String
  deriving DecidableEq

/-- What one round trip of `getScoreForDependency` meets. -/
inductive HttpResult where
  /-- The call `http.NewRequestWithContext` failed. -/
  | requestError (msg : String)
  /-- The call `http.DefaultClient.Do` failed. -/
  | transportError (msg : String)
  /-- A response arrived: its status code and what decoding its body gives. -/
  | response (status : Nat) (body : Except String Score)

/-- The libraries and services outside the repository. The two network
collaborators may answer differently over time: they are given the log of the
calls made before. -/
structure Extern where
  /-- The function `strings.ToLower`. -/
  toLower : String → String
  /-- The function `doublestar.Match(pattern, name)`; `none` is `ErrBadPattern`. -/
  doublestarMatch : String → String → Option Bool
  /-- The function `vcs.RepoRootForImportPath(importPath, false)`. -/
  repoRootForImportPath : List String → String → Except String RepoRoot
  /-- The function `url.Parse`. -/
  urlParse : String → Except String URL
  /-- The HTTP GET of a URL under a context, with the decoding of the body. -/
  httpGet : List (Context × Dependency) → Context → String → HttpResult

/-- The arguments of the `fmt.Sprintf` call that renders one block reason:
`dep.Root`, `policy.Description`, the evaluated score `s`, the rule's check
name (from which the text `d` is built, empty when the rule has no check) and
`rule.MinimumScore`. -/
structure BlockReason where
  root : String
  description : String
  score : Float64
  check : String
  threshold : Float64
  deriving DecidableEq

/-- The processor (`Processor` in `processor.go`): its configuration and the
module path of its go.mod (`p.Modfile.Module.Mod.Path`). Its getter is part
of `State`. -/
structure Processor where
  Config : Configuration
  ModPath : String

/-- The mutable state and the trace of outside calls. -/
structure State where
  /-- The package variable `cache` of `dependency.go`: every stored
  `sync.OnceValues` function has run, so an entry is its outcome. -/
  cache : List (String × Except Error Dependency)
  /-- The field `Getter.scorecards`, likewise. -/
  scorecards : List (Dependency × Except Error Score)
  /-- The import paths handed to `vcs.RepoRootForImportPath`, oldest first. -/
  lookups : List String
  /-- The calls of `getScoreForDependency`, oldest first. -/
  fetches : List (Context × Dependency)
  deriving DecidableEq

/-- The state of a fresh process. -/
def State.empty : State := ⟨[], [], [], []⟩

/-- The method `sync.Map.Load` on a map kept as an association list. -/
def mapLoad {κ ν : Type} [DecidableEq κ] (m : List (κ × ν)) (k : κ) : Option ν :=
  match m with
  | [] => none
  | (k', v) :: rest => if k' = k then some v else mapLoad rest k

/-! ## `internal/scorecard/getter.go` -/

/-- The request URL built by `getScoreForDependency`. -/
def scoreURL (dep : Dependency) : String :=
  "https://api.securityscorecards.dev" ++ "/projects/" ++ dep.Platform ++ "/" ++ dep.Org
    ++ "/" ++ dep.Repo ++ "?commit=" ++ dep.Commit

/-- The function `getScoreForDependency`; `log` is the list of the fetches made
before this one. -/
def getScoreForDependency (E : Extern) (log : List (Context × Dependency)) (ctx : Context)
    (dep : Dependency) : Except Error Score :=
  match E.httpGet log ctx (scoreURL dep) with
  | .requestError msg => .error (.createRequest msg)
  | .transportError msg => .error (.performRequest msg)
  | .response status body =>
    if status = 404 then .error (.noScorecard dep.Root)
    else if status ≠ 200 then .error (.statusCode status)
    else
      match body with
      | .error msg => .error (.unmarshal msg)
      | .ok result => .ok result

/-- The method `Getter.Get`: `LoadOrStore` of a once-function under the key
`dep`, then a call of the function found or stored. A function found has run
before and replays its outcome; a function stored runs the fetch with the
context of this call. -/
def Getter.Get (E : Extern) (ctx : Context) (dep : Dependency) (st : State) :
    Except Error Score × State :=
  match mapLoad st.scorecards dep with
  | some r => (r, st)
  | none =>
    let r := getScoreForDependency E st.fetches ctx dep
    (r, { st with scorecards := (dep, r) :: st.scorecards
                  fetches := st.fetches ++ [(ctx, dep)] })

/-! ## `internal/scorecard/dependency.go` -/

/-- The special case for gopkg.in inside `ParseDependencyForImportPath`: the
URL after the `if strings.Contains(repoRootURL.Host, "gopkg.in")` block. -/
def gopkgRewrite (u : URL) : URL :=
  if stringsContains u.Host "gopkg.in" then
    let path := stringsTrim u.Path "/"
    let path := (stringsCut path ".").1
    let path :=
      if !stringsContains (stringsTrim u.Path "/") "/" then "go-" ++ path ++ "/" ++ path
      else path
    { Host := "github.com", Path := path }
  else u

/-- The tail of the function memoised by `ParseDependencyForImportPath`, from
the parsed repository URL on. -/
def dependencyOfURL (u : URL) (root : String) : Dependency :=
  let u := gopkgRewrite u
  let cut := stringsCut (stringsTrim u.Path "/") "/"
  { Commit := "", Platform := u.Host, Org := cut.1, Repo := cut.2.1, Root := root }

/-- The function memoised by `ParseDependencyForImportPath`; `log` is the list
of the lookups made before this one. -/
def resolveDependency (E : Extern) (log : List String) (importPath : String) :
    Except Error Dependency :=
  match E.repoRootForImportPath log importPath with
  | .error msg => .error (.repoRoot msg)
  | .ok repoRoot =>
    match E.urlParse repoRoot.Repo with
    | .error msg => .error (.urlParse msg)
    | .ok repoRootURL => .ok (dependencyOfURL repoRootURL repoRoot.Root)

/-- The function `ParseDependencyForImportPath`. -/
def ParseDependencyForImportPath (E : Extern) (importPath : String) (st : State) :
    Except Error Dependency × State :=
  match mapLoad st.cache importPath with
  | some r => (r, st)
  | none =>
    let r := resolveDependency E st.lookups importPath
    (r, { st with cache := (importPath, r) :: st.cache
                  lookups := st.lookups ++ [importPath] })

/-! ## `processor.go` -/

/-- The loop over `policy.Include`: the value of `keep` after it, which starts
as `false`. -/
def includeLoop (E : Extern) (root : String) : List String → Except Error Bool
  | [] => .ok false
  | pat :: rest =>
    match E.doublestarMatch (E.toLower pat) (E.toLower root) with
    | none => .error (.invalidPackageMatch pat)
    | some true => .ok true
    | some false => includeLoop E root rest

/-- The loop over `policy.Exclude`: the value of `keep` after it, which starts
as `true`. -/
def excludeLoop (E : Extern) (root : String) : List String → Except Error Bool
  | [] => .ok true
  | pat :: rest =>
    match E.doublestarMatch (E.toLower pat) (E.toLower root) with
    | none => .error (.invalidPackageMatch pat)
    | some true => .ok false
    | some false => excludeLoop E root rest

/-- The scope test of one policy: the value of `keep` at the line
`if !keep`, or the error that left the function before. -/
def scopeTest (E : Extern) (policy : Policy) (root : String) : Except Error Bool :=
  match (if policy.Include.length > 0 then includeLoop E root policy.Include else .ok true) with
  | .error e => .error e
  | .ok false => .ok false
  | .ok true => excludeLoop E root policy.Exclude

/-- The loop over `score.Checks`: the value of `s` after it, which starts as
the zero value. -/
def checkLoop (name : String) : List Check → Float64
  | [] => Float64.zero
  | check :: rest => if check.Name = name then check.Score else checkLoop name rest

/-- The value `s` a rule is tested on. -/
def ruleScore (rule : Rule) (score : Score) : Float64 :=
  if rule.Check ≠ "" then checkLoop rule.Check score.Checks else score.Score

/-- The loop over `policy.Rules`, appending to `reasons`. -/
def ruleLoop (dep : Dependency) (policy : Policy) (score : Score) :
    List Rule → List BlockReason → List BlockReason
  | [], reasons => reasons
  | rule :: rest, reasons =>
    let s := ruleScore rule score
    if Float64.lt s rule.MinimumScore then
      ruleLoop dep policy score rest
        (reasons ++ [⟨dep.Root, policy.Description, s, rule.Check, rule.MinimumScore⟩])
    else ruleLoop dep policy score rest reasons

/-- The loop over `p.Config.Policies` with the final `return reasons, nil`.
The result is the pair returned by `isBlockedPackage`; `nil` is `[]`. -/
def policyLoop (E : Extern) (ctx : Context) (dep : Dependency) :
    List Policy → List BlockReason → State → (List BlockReason × Option Error) × State
  | [], reasons, st => ((reasons, none), st)
  | policy :: rest, reasons, st =>
    match scopeTest E policy dep.Root with
    | .error e => (([], some e), st)
    | .ok false => policyLoop E ctx dep rest reasons st
    | .ok true =>
      match Getter.Get E ctx dep st with
      | (.error e, st1) => (([], some e), st1)
      | (.ok score, st1) =>
        policyLoop E ctx dep rest (ruleLoop dep policy score policy.Rules reasons) st1

/-- The method `Processor.isBlockedPackage`. -/
def Processor.isBlockedPackage (E : Extern) (p : Processor) (ctx : Context) (pkg : String)
    (st : State) : (List BlockReason × Option Error) × State :=
  if !stringsContains pkg "." then (([], none), st)
  else if stringsHasPrefix pkg p.ModPath then (([], none), st)
  else
    match ParseDependencyForImportPath E pkg st with
    | (.error e, st1) => (([], some e), st1)
    | (.ok dep, st1) => policyLoop E ctx dep p.Config.Policies [] st1

/-! ## A sample environment

The theorems below hold for every `Extern`. The concrete instances that
accompany them are evaluated in the following environment. -/

/-- Lower-casing of the ASCII letters, character by character. -/
def asciiLower (s : String) : String := ⟨s.data.map Char.toLower⟩

/-- The wildcard fragment of glob matching on character lists: `**` matches
any text, `*` matches any text without `/`, any other character matches
itself. -/
def wildcardMatch : List Char → List Char → Bool
  | [], n => n.isEmpty
  | c :: p, n =>
    if c = '*' then
      match p with
      | [] => !n.contains '/'
      | c2 :: p2 =>
        if c2 = '*' then (List.range (n.length + 1)).any fun i => wildcardMatch p2 (n.drop i)
        else (List.range (n.length + 1)).any fun i =>
          !(n.take i).contains '/' && wildcardMatch (c2 :: p2) (n.drop i)
    else
      match n with
      | [] => false
      | d :: n2 => c = d && wildcardMatch p n2

/-- A sample of `doublestar.Match`, a library outside the repository: the
wildcard fragment above, where `*` does not cross `/` and `**` does, with a
pattern that has a `[` that is never closed reported as invalid. -/
def sampleMatch (pattern name : String) : Option Bool :=
  if pattern.data.contains '[' && !pattern.data.contains ']' then none
  else some (wildcardMatch pattern.data name.data)

/-- A sample of `url.Parse` for URLs of the form `https://host/path`. -/
def sampleURLParse (raw : String) : Except String URL :=
  if stringsHasPrefix raw "https://" then
    let rest : String := ⟨raw.data.drop 8⟩
    let cut := stringsCut rest "/"
    .ok { Host := cut.1, Path := if cut.2.2 then "/" ++ cut.2.1 else "" }
  else .error "unsupported scheme"

/-- A sample of `vcs.RepoRootForImportPath`: three known repositories. -/
def sampleRepoRoot (_ : List String) (importPath : String) : Except String RepoRoot :=
  if stringsHasPrefix importPath "github.com/org/lib" then
    .ok { Repo := "https://github.com/org/lib", Root := "github.com/org/lib" }
  else if stringsHasPrefix importPath "gopkg.in/yaml.v3" then
    .ok { Repo := "https://gopkg.in/yaml.v3", Root := "gopkg.in/yaml.v3" }
  else if stringsHasPrefix importPath "gopkg.in/yaml.v2" then
    .ok { Repo := "https://gopkg.in/yaml.v2", Root := "gopkg.in/yaml.v2" }
  else .error "unrecognized import path"

/-- A sample scorecard: overall score 5.0, check "Maintained" at 2.0. -/
def sampleScore : Score :=
  { Score := .finite 5, Checks := [⟨"Maintained", "no recent commits", .finite 2⟩] }

/-- A sample reputation service: one recorded repository, 404 for the rest. -/
def sampleHttpGet (_ : List (Context × Dependency)) (_ : Context) (url : String) : HttpResult :=
  if url = "https://api.securityscorecards.dev/projects/github.com/org/lib?commit=" then
    .response 200 (.ok sampleScore)
  else .response 404 (.error "")

/-- The sample environment. -/
def sampleExtern : Extern :=
  { toLower := asciiLower
    doublestarMatch := sampleMatch
    repoRootForImportPath := sampleRepoRoot
    urlParse := sampleURLParse
    httpGet := sampleHttpGet }

/-- The sample environment with a resolver that takes every import path for
the root of a repository of its own, at `https://` followed by the path. -/
def selfRootExtern : Extern :=
  { sampleExtern with
    repoRootForImportPath := fun _ importPath => .ok ⟨"https://" ++ importPath, importPath⟩ }

/-- A policy on the overall score, for every dependency. -/
def minScorePolicy : Policy := ⟨"min score", [], [], [⟨"", .finite 7⟩]⟩

/-- A policy for one organisation, with a rule on a check and a rule on the
overall score that the sample score passes. -/
def maintainedPolicy : Policy :=
  ⟨"maintained", ["github.com/org/*"], [], [⟨"Maintained", .finite 5⟩, ⟨"", .finite 3⟩]⟩

/-- A policy for another organisation. -/
def otherPolicy : Policy := ⟨"others", ["github.com/other/*"], [], [⟨"", .finite 9⟩]⟩

/-- A policy whose include pattern is not a valid glob. -/
def brokenPolicy : Policy := ⟨"broken", ["["], [], [⟨"", .finite 9⟩]⟩

/-- A processor of the module `example.com/me` with the given policies. -/
def sampleProcessor (policies : List Policy) : Processor := ⟨⟨policies⟩, "example.com/me"⟩

/-- The dependency the sample import `github.com/org/lib/pkg` resolves to. -/
def sampleDependency : Dependency := ⟨"", "github.com", "org", "lib", "github.com/org/lib"⟩

/-- The dependency the sample import `gopkg.in/yaml.v3` resolves to. -/
def yamlV3 : Dependency := ⟨"", "github.com", "go-yaml", "yaml", "gopkg.in/yaml.v3"⟩

/-- The dependency the sample import `gopkg.in/yaml.v2` resolves to. -/
def yamlV2 : Dependency := ⟨"", "github.com", "go-yaml", "yaml", "gopkg.in/yaml.v2"⟩

/-! ## Definitions used to state the properties -/

/-- Whether some pattern of `pats` matches `root`, both lower-cased. -/
def anyMatch (E : Extern) (root : String) (pats : List String) : Bool :=
  pats.any fun pat => E.doublestarMatch (E.toLower pat) (E.toLower root) == some true

/-- The evaluated value of a rule in the words of the spec: the overall score
when the rule names no check, otherwise the score of the first check of that
name, and zero when there is none. -/
def evaluatedValue (rule : Rule) (score : Score) : Float64 :=
  if rule.Check = "" then score.Score
  else
    match score.Checks.find? fun check => check.Name = rule.Check with
    | some check => check.Score
    | none => Float64.zero

/-- The violation a rule contributes on a score, if any. -/
def violation (dep : Dependency) (policy : Policy) (score : Score) (rule : Rule) :
    Option BlockReason :=
  if Float64.lt (evaluatedValue rule score) rule.MinimumScore then
    some ⟨dep.Root, policy.Description, evaluatedValue rule score, rule.Check, rule.MinimumScore⟩
  else none

/-- The violated rules of a policy on a score, in the order of the rules. -/
def violatedRules (dep : Dependency) (score : Score) (policy : Policy) : List BlockReason :=
  policy.Rules.filterMap (violation dep policy score)

/-- The result of the policy loop when every call of `Getter.Get` in it has
the outcome `r`. -/
def pureLoop (E : Extern) (dep : Dependency) (r : Except Error Score) :
    List Policy → List BlockReason → List BlockReason × Option Error
  | [], reasons => (reasons, none)
  | policy :: rest, reasons =>
    match scopeTest E policy dep.Root with
    | .error e => ([], some e)
    | .ok false => pureLoop E dep r rest reasons
    | .ok true =>
      match r with
      | .error e => ([], some e)
      | .ok score => pureLoop E dep r rest (ruleLoop dep policy score policy.Rules reasons)

/-- Whether the policy loop reaches a call of `Getter.Get`: the first policy
whose scope test is not `false` applies. -/
def fetchReached (E : Extern) (root : String) : List Policy → Bool
  | [] => false
  | policy :: rest =>
    match scopeTest E policy root with
    | .error _ => false
    | .ok true => true
    | .ok false => fetchReached E root rest

/-- The policies that apply to a root. -/
def applying (E : Extern) (root : String) (policies : List Policy) : List Policy :=
  policies.filter fun policy => scopeTest E policy root = .ok true

/-- A sequence of calls of `Getter.Get`, one after the other: the outcomes
returned, in order, and the final state. -/
def runGets (E : Extern) : List (Context × Dependency) → State →
    List (Except Error Score) × State
  | [], st => ([], st)
  | (ctx, dep) :: rest, st =>
    ((Getter.Get E ctx dep st).1 :: (runGets E rest (Getter.Get E ctx dep st).2).1,
     (runGets E rest (Getter.Get E ctx dep st).2).2)

/-! ## The scope test -/

theorem anyMatch_eq_true (E : Extern) (root : String) (pats : List String) :
    anyMatch E root pats = true ↔
      ∃ pat ∈ pats, E.doublestarMatch (E.toLower pat) (E.toLower root) = some true := by
  simp [anyMatch]

theorem anyMatch_lower (E : Extern) (root root' : String) (pats pats' : List String)
    (hp : pats'.map E.toLower = pats.map E.toLower) (hr : E.toLower root' = E.toLower root) :
    anyMatch E root' pats' = anyMatch E root pats := by
  have key : ∀ (r : String) (l : List String), anyMatch E r l
      = (l.map E.toLower).any fun lp => E.doublestarMatch lp (E.toLower r) == some true := by
    intro r l
    simp [anyMatch, List.any_map, Function.comp_def]
  rw [key root' pats', key root pats, hp, hr]

theorem includeLoop_valid (E : Extern) (root : String) (pats : List String)
    (hvalid : ∀ pat ∈ pats, (E.doublestarMatch (E.toLower pat) (E.toLower root)).isSome) :
    includeLoop E root pats = .ok (anyMatch E root pats) := by
  induction pats with
  | nil => rfl
  | cons pat rest ih =>
    have hrest := ih fun q hq => hvalid q (List.mem_cons_of_mem _ hq)
    have hpat := hvalid pat (List.mem_cons_self _ _)
    cases hm : E.doublestarMatch (E.toLower pat) (E.toLower root) with
    | none => simp [hm] at hpat
    | some b =>
      cases b
      · simpa [includeLoop, anyMatch, hm] using hrest
      · simp [includeLoop, anyMatch, hm]

theorem excludeLoop_valid (E : Extern) (root : String) (pats : List String)
    (hvalid : ∀ pat ∈ pats, (E.doublestarMatch (E.toLower pat) (E.toLower root)).isSome) :
    excludeLoop E root pats = .ok (!anyMatch E root pats) := by
  induction pats with
  | nil => rfl
  | cons pat rest ih =>
    have hrest := ih fun q hq => hvalid q (List.mem_cons_of_mem _ hq)
    have hpat := hvalid pat (List.mem_cons_self _ _)
    cases hm : E.doublestarMatch (E.toLower pat) (E.toLower root) with
    | none => simp [hm] at hpat
    | some b =>
      cases b
      · simpa [excludeLoop, anyMatch, hm] using hrest
      · simp [excludeLoop, anyMatch, hm]

theorem scopeTest_valid (E : Extern) (policy : Policy) (root : String)
    (hvalid : ∀ pat ∈ policy.Include ++ policy.Exclude,
      (E.doublestarMatch (E.toLower pat) (E.toLower root)).isSome) :
    scopeTest E policy root
      = .ok ((policy.Include.isEmpty || anyMatch E root policy.Include)
          && !anyMatch E root policy.Exclude) := by
  have hinc := includeLoop_valid E root policy.Include
    fun q hq => hvalid q (List.mem_append_left _ hq)
  have hexc := excludeLoop_valid E root policy.Exclude
    fun q hq => hvalid q (List.mem_append_right _ hq)
  unfold scopeTest
  cases hI : policy.Include with
  | nil => simp [hI] at hexc ⊢; simpa [anyMatch] using hexc
  | cons a l =>
    rw [hI] at hinc
    simp only [List.length_cons, gt_iff_lt, Nat.zero_lt_succ, ↓reduceIte, hinc]
    cases hA : anyMatch E root (a :: l) <;> simp [hexc]

theorem policyLoop_cons (E : Extern) (ctx : Context) (dep : Dependency) (policy : Policy)
    (rest : List Policy) (reasons : List BlockReason) (st : State) :
    policyLoop E ctx dep (policy :: rest) reasons st =
      if scopeTest E policy dep.Root = .ok true then
        match Getter.Get E ctx dep st with
        | (.error e, st1) => (([], some e), st1)
        | (.ok score, st1) =>
          policyLoop E ctx dep rest (ruleLoop dep policy score policy.Rules reasons) st1
      else
        match scopeTest E policy dep.Root with
        | .error e => (([], some e), st)
        | .ok _ => policyLoop E ctx dep rest reasons st := by
  rw [policyLoop]
  cases hs : scopeTest E policy dep.Root with
  | error e => simp
  | ok b => cases b <;> simp

/-- C1. Scope test of `isBlockedPackage`. For a policy whose include and
exclude patterns are all accepted by the matcher on the root: the test ends
without error; the policy applies exactly when (the include list is empty or
some include pattern matches) and no exclude pattern matches, matching the
lower-cased pattern against the lower-cased root; a policy and a root with the
same lower-cased forms get the same verdict; a root matched by an include and
by an exclude pattern is out of scope; and the loop evaluates the rules of the
policy (after fetching the score) exactly when the policy applies, and moves
on to the next policy otherwise. -/
theorem scope_test_contract (E : Extern) (policy : Policy) (root : String)
    (hvalid : ∀ pat ∈ policy.Include ++ policy.Exclude,
      (E.doublestarMatch (E.toLower pat) (E.toLower root)).isSome) :
    (∃ keep, scopeTest E policy root = .ok keep) ∧
    (scopeTest E policy root = .ok true ↔
      (policy.Include = [] ∨
        ∃ pat ∈ policy.Include,
          E.doublestarMatch (E.toLower pat) (E.toLower root) = some true) ∧
      ¬ ∃ pat ∈ policy.Exclude,
          E.doublestarMatch (E.toLower pat) (E.toLower root) = some true) ∧
    (∀ (policy' : Policy) (root' : String),
      policy'.Include.map E.toLower = policy.Include.map E.toLower →
      policy'.Exclude.map E.toLower = policy.Exclude.map E.toLower →
      E.toLower root' = E.toLower root →
      scopeTest E policy' root' = scopeTest E policy root) ∧
    ((∃ pat ∈ policy.Include,
          E.doublestarMatch (E.toLower pat) (E.toLower root) = some true) →
      (∃ pat ∈ policy.Exclude,
          E.doublestarMatch (E.toLower pat) (E.toLower root) = some true) →
      scopeTest E policy root = .ok false) ∧
    (∀ (ctx : Context) (dep : Dependency) (rest : List Policy) (reasons : List BlockReason)
        (st : State), dep.Root = root →
      policyLoop E ctx dep (policy :: rest) reasons st =
        if scopeTest E policy root = .ok true then
          match Getter.Get E ctx dep st with
          | (.error e, st1) => (([], some e), st1)
          | (.ok score, st1) =>
            policyLoop E ctx dep rest (ruleLoop dep policy score policy.Rules reasons) st1
        else policyLoop E ctx dep rest reasons st) := by
  have hs := scopeTest_valid E policy root hvalid
  have hiff : scopeTest E policy root = .ok true ↔
      (policy.Include = [] ∨
        ∃ pat ∈ policy.Include,
          E.doublestarMatch (E.toLower pat) (E.toLower root) = some true) ∧
      ¬ ∃ pat ∈ policy.Exclude,
          E.doublestarMatch (E.toLower pat) (E.toLower root) = some true := by
    rw [hs, ← anyMatch_eq_true, ← anyMatch_eq_true]
    simp [List.isEmpty_iff]
  refine ⟨⟨_, hs⟩, hiff, ?_, ?_, ?_⟩
  · intro policy' root' hI hX hr
    have hmem : ∀ (l l' : List String), l'.map E.toLower = l.map E.toLower →
        (∀ pat ∈ l, (E.doublestarMatch (E.toLower pat) (E.toLower root)).isSome) →
        ∀ pat ∈ l', (E.doublestarMatch (E.toLower pat) (E.toLower root')).isSome := by
      intro l l' hl hv pat hpat
      have h1 : E.toLower pat ∈ l.map E.toLower := hl ▸ List.mem_map_of_mem _ hpat
      obtain ⟨q, hq, hqe⟩ := List.mem_map.1 h1
      rw [hr, ← hqe]
      exact hv q hq
    have hvalid' : ∀ pat ∈ policy'.Include ++ policy'.Exclude,
        (E.doublestarMatch (E.toLower pat) (E.toLower root')).isSome := by
      intro pat hpat
      rcases List.mem_append.1 hpat with h | h
      · exact hmem _ _ hI (fun q hq => hvalid q (List.mem_append_left _ hq)) pat h
      · exact hmem _ _ hX (fun q hq => hvalid q (List.mem_append_right _ hq)) pat h
    have hempty : policy'.Include.isEmpty = policy.Include.isEmpty := by
      have hlen := congrArg List.length hI
      simp only [List.length_map] at hlen
      cases h1 : policy'.Include <;> cases h2 : policy.Include <;> simp_all
    rw [scopeTest_valid E policy' root' hvalid', hs, hempty,
      anyMatch_lower E root root' _ _ hI hr, anyMatch_lower E root root' _ _ hX hr]
  · intro hinc hexc
    have hne : ¬ scopeTest E policy root = .ok true := fun h => (hiff.1 h).2 hexc
    rw [hs] at hne ⊢
    cases hb : ((policy.Include.isEmpty || anyMatch E root policy.Include)
          && !anyMatch E root policy.Exclude) with
    | false => rfl
    | true => rw [hb] at hne; exact absurd rfl hne
  · intro ctx dep rest reasons st hroot
    subst hroot
    rw [policyLoop_cons, hs]

/-- C1 at a concrete input: a policy with a mixed-case include pattern and an
exclude pattern, on a root under the included organisation. -/
theorem scope_test_contract_witness :
    (∀ pat ∈ ["GitHub.com/Org/*"] ++ ["github.com/org/internal*"],
      (sampleExtern.doublestarMatch (sampleExtern.toLower pat)
        (sampleExtern.toLower "github.com/ORG/lib")).isSome) ∧
    scopeTest sampleExtern ⟨"p", ["GitHub.com/Org/*"], ["github.com/org/internal*"], []⟩
      "github.com/ORG/lib" = .ok true :=
  ⟨by decide,
   ((scope_test_contract sampleExtern
      ⟨"p", ["GitHub.com/Org/*"], ["github.com/org/internal*"], []⟩ "github.com/ORG/lib"
      (by decide)).2.1).2 ⟨Or.inr (by decide), by decide⟩⟩

/-! ## The threshold rule -/

theorem Float64.lt_irrefl (x : Float64) : Float64.lt x x = false := by
  cases x <;> simp [Float64.lt]

theorem Float64.lt_zero_of_positive (x : Float64) (h : Float64.positive x = true) :
    Float64.lt Float64.zero x = true := h

theorem checkLoop_eq_find (name : String) (checks : List Check) :
    checkLoop name checks =
      match checks.find? fun check => check.Name = name with
      | some check => check.Score
      | none => Float64.zero := by
  induction checks with
  | nil => rfl
  | cons c cs ih =>
    by_cases h : c.Name = name
    · simp [checkLoop, List.find?, h]
    · simp [checkLoop, List.find?, h, ih]

theorem ruleScore_eq_evaluatedValue (rule : Rule) (score : Score) :
    ruleScore rule score = evaluatedValue rule score := by
  unfold ruleScore evaluatedValue
  by_cases h : rule.Check = ""
  · simp [h]
  · simp [h, checkLoop_eq_find]

theorem ruleLoop_eq (dep : Dependency) (policy : Policy) (score : Score) (rules : List Rule)
    (reasons : List BlockReason) :
    ruleLoop dep policy score rules reasons
      = reasons ++ rules.filterMap (violation dep policy score) := by
  induction rules generalizing reasons with
  | nil => simp [ruleLoop]
  | cons rule rest ih =>
    by_cases h : Float64.lt (evaluatedValue rule score) rule.MinimumScore = true
    · simp [ruleLoop, ruleScore_eq_evaluatedValue, violation, h, ih]
    · simp [ruleLoop, ruleScore_eq_evaluatedValue, violation, h, ih]

theorem evaluatedValue_absent (rule : Rule) (score : Score) (hset : rule.Check ≠ "")
    (habsent : ∀ check ∈ score.Checks, check.Name ≠ rule.Check) :
    evaluatedValue rule score = Float64.zero := by
  have hfind : (score.Checks.find? fun check => check.Name = rule.Check) = none := by
    rw [List.find?_eq_none]
    intro c hc
    simpa using habsent c hc
  simp [evaluatedValue, hset, hfind]

/-- C2. Threshold rule of `isBlockedPackage`. The value a rule is tested on is
the overall score when the rule has no check name, otherwise the score of the
first check of the score's list with that name, and zero when no check has
it. The rule loop appends, rule by rule and in order, one violation for a rule
whose value is strictly below `MinimumScore` and nothing for the others; a
value equal to the threshold gives no violation; and a named check that is
absent gives a violation with value zero against every positive threshold. -/
theorem threshold_rule_contract (dep : Dependency) (policy : Policy) (score : Score)
    (rule : Rule) (rules : List Rule) (reasons : List BlockReason) :
    ruleScore rule score = evaluatedValue rule score ∧
    ruleLoop dep policy score [rule] reasons =
      (if Float64.lt (evaluatedValue rule score) rule.MinimumScore then
        reasons ++ [⟨dep.Root, policy.Description, evaluatedValue rule score, rule.Check,
          rule.MinimumScore⟩]
      else reasons) ∧
    ruleLoop dep policy score rules reasons
      = reasons ++ rules.filterMap (violation dep policy score) ∧
    (evaluatedValue rule score = rule.MinimumScore →
      ruleLoop dep policy score [rule] reasons = reasons) ∧
    (rule.Check ≠ "" → (∀ check ∈ score.Checks, check.Name ≠ rule.Check) →
      Float64.positive rule.MinimumScore = true →
      ruleLoop dep policy score [rule] reasons =
        reasons ++ [⟨dep.Root, policy.Description, Float64.zero, rule.Check,
          rule.MinimumScore⟩]) := by
  have hone : ruleLoop dep policy score [rule] reasons =
      (if Float64.lt (evaluatedValue rule score) rule.MinimumScore then
        reasons ++ [⟨dep.Root, policy.Description, evaluatedValue rule score, rule.Check,
          rule.MinimumScore⟩]
      else reasons) := by
    simp only [ruleLoop, ruleScore_eq_evaluatedValue]
  refine ⟨ruleScore_eq_evaluatedValue rule score, hone, ruleLoop_eq dep policy score rules reasons,
    ?_, ?_⟩
  · intro heq
    rw [hone, heq, Float64.lt_irrefl]
    rfl
  · intro hset habsent hpos
    rw [hone, evaluatedValue_absent rule score hset habsent,
      Float64.lt_zero_of_positive _ hpos]
    rfl

/-- C2 at the inputs of the spec: the check "Maintained" at 2.0 against the
threshold 5.0 gives one violation naming the check; the same rule on a score
without that check gives one violation with value zero. -/
theorem threshold_rule_contract_witness :
    ruleLoop ⟨"", "github.com", "org", "lib", "github.com/org/lib"⟩
        ⟨"maintained", [], [], [⟨"Maintained", .finite 5⟩]⟩ sampleScore
        [⟨"Maintained", .finite 5⟩] []
      = [⟨"github.com/org/lib", "maintained", .finite 2, "Maintained", .finite 5⟩] ∧
    ruleLoop ⟨"", "github.com", "org", "lib", "github.com/org/lib"⟩
        ⟨"maintained", [], [], [⟨"Maintained", .finite 5⟩]⟩ ⟨.finite 9, []⟩
        [⟨"Maintained", .finite 5⟩] []
      = [⟨"github.com/org/lib", "maintained", Float64.zero, "Maintained", .finite 5⟩] :=
  ⟨by
    rw [(threshold_rule_contract ⟨"", "github.com", "org", "lib", "github.com/org/lib"⟩
      ⟨"maintained", [], [], [⟨"Maintained", .finite 5⟩]⟩ sampleScore
      ⟨"Maintained", .finite 5⟩ [] []).2.1]
    decide,
   (threshold_rule_contract ⟨"", "github.com", "org", "lib", "github.com/org/lib"⟩
      ⟨"maintained", [], [], [⟨"Maintained", .finite 5⟩]⟩ ⟨.finite 9, []⟩
      ⟨"Maintained", .finite 5⟩ [] []).2.2.2.2 (by decide) (by decide) (by decide)⟩

/-! ## The score cache -/

theorem Getter.Get_cached (E : Extern) (ctx : Context) (dep : Dependency) (st : State)
    (r : Except Error Score) (h : mapLoad st.scorecards dep = some r) :
    Getter.Get E ctx dep st = (r, st) := by
  simp [Getter.Get, h]

theorem Getter.Get_fresh (E : Extern) (ctx : Context) (dep : Dependency) (st : State)
    (h : mapLoad st.scorecards dep = none) :
    Getter.Get E ctx dep st =
      (getScoreForDependency E st.fetches ctx dep,
       { st with scorecards := (dep, getScoreForDependency E st.fetches ctx dep) :: st.scorecards
                 fetches := st.fetches ++ [(ctx, dep)] }) := by
  simp [Getter.Get, h]

theorem Getter.Get_stored (E : Extern) (ctx : Context) (dep : Dependency) (st : State) :
    mapLoad (Getter.Get E ctx dep st).2.scorecards dep = some (Getter.Get E ctx dep st).1 := by
  cases h : mapLoad st.scorecards dep with
  | some r => simp [Getter.Get, h]
  | none => simp [Getter.Get, h, mapLoad]

/-! ## The policy loop -/

theorem pureLoop_cons (E : Extern) (dep : Dependency) (r : Except Error Score)
    (policy : Policy) (rest : List Policy) (reasons : List BlockReason) :
    pureLoop E dep r (policy :: rest) reasons =
      match scopeTest E policy dep.Root with
      | .error e => ([], some e)
      | .ok false => pureLoop E dep r rest reasons
      | .ok true =>
        match r with
        | .error e => ([], some e)
        | .ok score => pureLoop E dep r rest (ruleLoop dep policy score policy.Rules reasons) := by
  cases r <;> rfl

theorem policyLoop_cached (E : Extern) (ctx : Context) (dep : Dependency)
    (r : Except Error Score) (policies : List Policy) (reasons : List BlockReason) (st : State)
    (h : mapLoad st.scorecards dep = some r) :
    policyLoop E ctx dep policies reasons st = (pureLoop E dep r policies reasons, st) := by
  induction policies generalizing reasons with
  | nil => rfl
  | cons policy rest ih =>
    rw [policyLoop, pureLoop_cons, Getter.Get_cached E ctx dep st r h]
    cases hs : scopeTest E policy dep.Root with
    | error e => rfl
    | ok b =>
      cases b with
      | false => exact ih reasons
      | true =>
        cases r with
        | error e => rfl
        | ok score => exact ih _

theorem policyLoop_eq (E : Extern) (ctx : Context) (dep : Dependency)
    (policies : List Policy) (reasons : List BlockReason) (st : State) :
    policyLoop E ctx dep policies reasons st =
      (pureLoop E dep (Getter.Get E ctx dep st).1 policies reasons,
       if fetchReached E dep.Root policies then (Getter.Get E ctx dep st).2 else st) := by
  induction policies generalizing reasons with
  | nil => rfl
  | cons policy rest ih =>
    rw [policyLoop, pureLoop_cons, fetchReached]
    cases hs : scopeTest E policy dep.Root with
    | error e => rfl
    | ok b =>
      cases b with
      | false => exact ih reasons
      | true =>
        have hst := Getter.Get_stored E ctx dep st
        cases hg : Getter.Get E ctx dep st with
        | mk r st1 =>
          rw [hg] at hst
          cases r with
          | error e => rfl
          | ok score =>
            simp only [↓reduceIte]
            exact policyLoop_cached E ctx dep (.ok score) rest _ st1 hst

theorem pureLoop_ok (E : Extern) (dep : Dependency) (score : Score) (policies : List Policy)
    (reasons out : List BlockReason)
    (h : pureLoop E dep (.ok score) policies reasons = (out, none)) :
    out = reasons ++ (applying E dep.Root policies).flatMap (violatedRules dep score) := by
  induction policies generalizing reasons with
  | nil => simp [pureLoop] at h; simp [applying, h]
  | cons policy rest ih =>
    rw [pureLoop_cons] at h
    cases hs : scopeTest E policy dep.Root with
    | error e => simp [hs] at h
    | ok b =>
      cases b with
      | false =>
        simp only [hs] at h
        simpa [applying, hs] using ih reasons h
      | true =>
        simp only [hs] at h
        have := ih _ h
        simp [applying, hs, violatedRules, ruleLoop_eq] at this ⊢
        exact this

theorem pureLoop_error_none (E : Extern) (dep : Dependency) (e : Error)
    (policies : List Policy) (reasons out : List BlockReason)
    (h : pureLoop E dep (.error e) policies reasons = (out, none)) :
    out = reasons ∧ applying E dep.Root policies = [] := by
  induction policies generalizing reasons with
  | nil => simp [pureLoop] at h; simp [applying, h]
  | cons policy rest ih =>
    rw [pureLoop_cons] at h
    cases hs : scopeTest E policy dep.Root with
    | error e => simp [hs] at h
    | ok b =>
      cases b with
      | false =>
        simp only [hs] at h
        simpa [applying, hs] using ih reasons h
      | true => simp [hs] at h

theorem pureLoop_some (E : Extern) (dep : Dependency) (r : Except Error Score)
    (policies : List Policy) (reasons out : List BlockReason) (e : Error)
    (h : pureLoop E dep r policies reasons = (out, some e)) : out = [] := by
  induction policies generalizing reasons with
  | nil => simp [pureLoop] at h
  | cons policy rest ih =>
    rw [pureLoop_cons] at h
    cases hs : scopeTest E policy dep.Root with
    | error e1 => simp [hs] at h; exact h.1
    | ok b =>
      cases b with
      | false => simp only [hs] at h; exact ih reasons h
      | true =>
        simp only [hs] at h
        cases r with
        | error e1 => simp at h; exact h.1
        | ok score => exact ih _ h

theorem applying_append (E : Extern) (root : String) (pre post : List Policy) :
    applying E root (pre ++ post) = applying E root pre ++ applying E root post := by
  simp [applying]

theorem violatedRules_length_le (dep : Dependency) (score : Score) (policies : List Policy) :
    (policies.flatMap (violatedRules dep score)).length
      ≤ (policies.map fun policy => policy.Rules.length).sum := by
  induction policies with
  | nil => simp
  | cons policy rest ih =>
    have h1 : (violatedRules dep score policy).length ≤ policy.Rules.length := by
      unfold violatedRules
      exact List.length_filterMap_le _ _
    simp only [List.flatMap_cons, List.length_append, List.map_cons, List.sum_cons]
    omega

theorem policyLoop_ok_spec (E : Extern) (ctx : Context) (dep : Dependency)
    (policies : List Policy) (reasons out : List BlockReason) (st st' : State)
    (h : policyLoop E ctx dep policies reasons st = ((out, none), st')) :
    ∃ score, (applying E dep.Root policies ≠ [] → (Getter.Get E ctx dep st).1 = .ok score) ∧
      out = reasons ++ (applying E dep.Root policies).flatMap (violatedRules dep score) := by
  rw [policyLoop_eq] at h
  have h1 : pureLoop E dep (Getter.Get E ctx dep st).1 policies reasons = (out, none) :=
    congrArg Prod.fst h
  cases hg : (Getter.Get E ctx dep st).1 with
  | ok score =>
    rw [hg] at h1
    exact ⟨score, fun _ => rfl, pureLoop_ok E dep score policies reasons out h1⟩
  | error e =>
    rw [hg] at h1
    obtain ⟨ho, ha⟩ := pureLoop_error_none E dep e policies reasons out h1
    exact ⟨⟨Float64.zero, []⟩, fun hne => absurd ha hne, by simp [ho, ha]⟩

/-- C3. Ordering and aggregation. When `isBlockedPackage` resolves the import
to a dependency and returns without error, the violations it returns are the
concatenation, over the configured policies that apply to the dependency's
root and in configuration order, of the violated rules of each policy in the
order of its rules, all on the one score the getter returned. Hence, for every
split of the policy list in two, the violations of the first part come before
those of the second, and the number of violations is at most the number of
rules of the applying policies. -/
theorem ordering_aggregation (E : Extern) (p : Processor) (ctx : Context) (pkg : String)
    (st st1 st' : State) (dep : Dependency) (out : List BlockReason)
    (hdot : stringsContains pkg "." = true)
    (hmod : stringsHasPrefix pkg p.ModPath = false)
    (hdep : ParseDependencyForImportPath E pkg st = (.ok dep, st1))
    (hret : p.isBlockedPackage E ctx pkg st = ((out, none), st')) :
    ∃ score,
      (applying E dep.Root p.Config.Policies ≠ [] →
        (Getter.Get E ctx dep st1).1 = .ok score) ∧
      out = (applying E dep.Root p.Config.Policies).flatMap (violatedRules dep score) ∧
      (∀ pre post, p.Config.Policies = pre ++ post →
        out = (applying E dep.Root pre).flatMap (violatedRules dep score)
          ++ (applying E dep.Root post).flatMap (violatedRules dep score)) ∧
      out.length ≤ ((applying E dep.Root p.Config.Policies).map
        fun policy => policy.Rules.length).sum := by
  have hloop : policyLoop E ctx dep p.Config.Policies [] st1 = ((out, none), st') := by
    simpa [Processor.isBlockedPackage, hdot, hmod, hdep] using hret
  obtain ⟨score, hscore, hout⟩ := policyLoop_ok_spec E ctx dep _ _ _ _ _ hloop
  simp only [List.nil_append] at hout
  refine ⟨score, hscore, hout, ?_, ?_⟩
  · intro pre post hsplit
    rw [hout, hsplit, applying_append, List.flatMap_append]
  · rw [hout]
    exact violatedRules_length_le dep score _

/-- C3 at a concrete input: three policies, of which the first and the second
apply; the violation of the first comes before the violation of the second. -/
theorem ordering_aggregation_witness :
    ∃ score,
      (applying sampleExtern sampleDependency.Root
          (sampleProcessor [minScorePolicy, otherPolicy, maintainedPolicy]).Config.Policies ≠ [] →
        (Getter.Get sampleExtern 0 sampleDependency
          (ParseDependencyForImportPath sampleExtern "github.com/org/lib/pkg" State.empty).2).1
          = .ok score) ∧
      [(⟨"github.com/org/lib", "min score", .finite 5, "", .finite 7⟩ : BlockReason),
        ⟨"github.com/org/lib", "maintained", .finite 2, "Maintained", .finite 5⟩]
        = (applying sampleExtern sampleDependency.Root
            (sampleProcessor [minScorePolicy, otherPolicy, maintainedPolicy]).Config.Policies).flatMap
            (violatedRules sampleDependency score) ∧
      (∀ pre post,
        (sampleProcessor [minScorePolicy, otherPolicy, maintainedPolicy]).Config.Policies
          = pre ++ post →
        [(⟨"github.com/org/lib", "min score", .finite 5, "", .finite 7⟩ : BlockReason),
          ⟨"github.com/org/lib", "maintained", .finite 2, "Maintained", .finite 5⟩]
          = (applying sampleExtern sampleDependency.Root pre).flatMap
              (violatedRules sampleDependency score)
            ++ (applying sampleExtern sampleDependency.Root post).flatMap
              (violatedRules sampleDependency score)) ∧
      [(⟨"github.com/org/lib", "min score", .finite 5, "", .finite 7⟩ : BlockReason),
        ⟨"github.com/org/lib", "maintained", .finite 2, "Maintained", .finite 5⟩].length
        ≤ ((applying sampleExtern sampleDependency.Root
            (sampleProcessor [minScorePolicy, otherPolicy, maintainedPolicy]).Config.Policies).map
            fun policy => policy.Rules.length).sum :=
  ordering_aggregation sampleExtern
    (sampleProcessor [minScorePolicy, otherPolicy, maintainedPolicy]) 0
    "github.com/org/lib/pkg" State.empty
    (ParseDependencyForImportPath sampleExtern "github.com/org/lib/pkg" State.empty).2
    ((sampleProcessor [minScorePolicy, otherPolicy, maintainedPolicy]).isBlockedPackage
      sampleExtern 0 "github.com/org/lib/pkg" State.empty).2
    sampleDependency _ (by decide) (by decide) (by decide) (by decide)

/-! ## Errors -/

theorem pureLoop_abort (E : Extern) (dep : Dependency) (r : Except Error Score)
    (pre : List Policy) (policy : Policy) (post : List Policy) (reasons : List BlockReason)
    (e : Error) (h : scopeTest E policy dep.Root = .error e) :
    pureLoop E dep r (pre ++ policy :: post) reasons
      = pureLoop E dep r (pre ++ [policy]) reasons := by
  induction pre generalizing reasons with
  | nil => simp [pureLoop_cons, h]
  | cons q rest ih =>
    simp only [List.cons_append, pureLoop_cons]
    cases hs : scopeTest E q dep.Root with
    | error e1 => rfl
    | ok b =>
      cases b with
      | false => exact ih reasons
      | true =>
        cases r with
        | error e1 => rfl
        | ok score => exact ih _

theorem fetchReached_abort (E : Extern) (root : String) (pre : List Policy) (policy : Policy)
    (post : List Policy) (e : Error) (h : scopeTest E policy root = .error e) :
    fetchReached E root (pre ++ policy :: post) = fetchReached E root (pre ++ [policy]) := by
  induction pre with
  | nil => simp [fetchReached, h]
  | cons q rest ih =>
    simp only [List.cons_append, fetchReached]
    cases hs : scopeTest E q root with
    | error e1 => rfl
    | ok b => cases b <;> simp [ih]

theorem pureLoop_abort_error (E : Extern) (dep : Dependency) (r : Except Error Score)
    (pre : List Policy) (policy : Policy) (reasons : List BlockReason)
    (e : Error) (h : scopeTest E policy dep.Root = .error e) :
    ∃ e1, pureLoop E dep r (pre ++ [policy]) reasons = ([], some e1) := by
  induction pre generalizing reasons with
  | nil => exact ⟨e, by simp [pureLoop_cons, h]⟩
  | cons q rest ih =>
    simp only [List.cons_append, pureLoop_cons]
    cases hq : scopeTest E q dep.Root with
    | error e1 => exact ⟨e1, rfl⟩
    | ok b =>
      cases b with
      | false => exact ih reasons
      | true =>
        cases r with
        | error e1 => exact ⟨e1, rfl⟩
        | ok score => exact ih _

/-- C4 fails as stated: with a policy that is violated, then a policy with an
invalid include pattern, then a second policy that is violated, the call
returns the error and no violation at all, although the first policy alone
yields a violation, and the two valid policies alone yield two. -/
theorem errors_keep_violations_counterexample :
    ((sampleProcessor [minScorePolicy, brokenPolicy, maintainedPolicy]).isBlockedPackage
        sampleExtern 0 "github.com/org/lib/pkg" State.empty).1
      = ([], some (.invalidPackageMatch "[")) ∧
    ((sampleProcessor [minScorePolicy]).isBlockedPackage
        sampleExtern 0 "github.com/org/lib/pkg" State.empty).1
      = ([⟨"github.com/org/lib", "min score", .finite 5, "", .finite 7⟩], none) ∧
    ((sampleProcessor [minScorePolicy, maintainedPolicy]).isBlockedPackage
        sampleExtern 0 "github.com/org/lib/pkg" State.empty).1
      = ([⟨"github.com/org/lib", "min score", .finite 5, "", .finite 7⟩,
          ⟨"github.com/org/lib", "maintained", .finite 2, "Maintained", .finite 5⟩], none) := by
  decide

/-- C4, amended. Whenever `isBlockedPackage` returns an error it returns no
violation: the statements `return nil, err` drop what the earlier policies
accumulated. An invalid glob pattern in a policy ends the whole call: the
result and the final state do not depend on the policies after it. -/
theorem errors_discard_violations (E : Extern) (p : Processor) (ctx : Context) (pkg : String)
    (st st' : State) (out : List BlockReason) (e : Error)
    (hret : p.isBlockedPackage E ctx pkg st = ((out, some e), st')) :
    out = [] ∧
    (∀ (dep : Dependency) (pre post : List Policy) (policy : Policy)
        (reasons : List BlockReason) (st0 : State) (e0 : Error),
      scopeTest E policy dep.Root = .error e0 →
      policyLoop E ctx dep (pre ++ policy :: post) reasons st0
        = policyLoop E ctx dep (pre ++ [policy]) reasons st0 ∧
      ∃ e1, (policyLoop E ctx dep (pre ++ policy :: post) reasons st0).1 = ([], some e1)) := by
  constructor
  · unfold Processor.isBlockedPackage at hret
    split at hret
    · simp at hret
    · split at hret
      · simp at hret
      · split at hret
        · simp at hret; exact hret.1.1
        · rename_i dep st1 _
          rw [policyLoop_eq] at hret
          exact pureLoop_some E dep _ _ _ _ e (congrArg Prod.fst hret)
  · intro dep pre post policy reasons st0 e0 hs
    have heq : policyLoop E ctx dep (pre ++ policy :: post) reasons st0
        = policyLoop E ctx dep (pre ++ [policy]) reasons st0 := by
      rw [policyLoop_eq, policyLoop_eq, pureLoop_abort E dep _ pre policy post reasons e0 hs,
        fetchReached_abort E dep.Root pre policy post e0 hs]
    refine ⟨heq, ?_⟩
    rw [heq, policyLoop_eq]
    exact pureLoop_abort_error E dep _ pre policy reasons e0 hs

/-- C4, amended, at a concrete input: the call of the counterexample returns
the error with an empty list of violations. -/
theorem errors_discard_violations_witness :
    ((sampleProcessor [minScorePolicy, brokenPolicy, maintainedPolicy]).isBlockedPackage
        sampleExtern 0 "github.com/org/lib/pkg" State.empty).1.2
      = some (.invalidPackageMatch "[") ∧
    ((sampleProcessor [minScorePolicy, brokenPolicy, maintainedPolicy]).isBlockedPackage
        sampleExtern 0 "github.com/org/lib/pkg" State.empty).1.1 = [] :=
  ⟨by decide,
   (errors_discard_violations sampleExtern
      (sampleProcessor [minScorePolicy, brokenPolicy, maintainedPolicy]) 0
      "github.com/org/lib/pkg" State.empty
      ((sampleProcessor [minScorePolicy, brokenPolicy, maintainedPolicy]).isBlockedPackage
        sampleExtern 0 "github.com/org/lib/pkg" State.empty).2
      ((sampleProcessor [minScorePolicy, brokenPolicy, maintainedPolicy]).isBlockedPackage
        sampleExtern 0 "github.com/org/lib/pkg" State.empty).1.1
      (.invalidPackageMatch "[") (by decide)).1⟩

/-! ## Out-of-scope dependencies -/

theorem ParseDependencyForImportPath_frame (E : Extern) (importPath : String) (st : State) :
    (ParseDependencyForImportPath E importPath st).2.scorecards = st.scorecards ∧
    (ParseDependencyForImportPath E importPath st).2.fetches = st.fetches := by
  unfold ParseDependencyForImportPath
  cases mapLoad st.cache importPath <;> simp

theorem none_apply (E : Extern) (dep : Dependency) (r : Except Error Score)
    (policies : List Policy) (reasons : List BlockReason)
    (h : ∀ policy ∈ policies, scopeTest E policy dep.Root = .ok false) :
    pureLoop E dep r policies reasons = (reasons, none) ∧
    fetchReached E dep.Root policies = false := by
  induction policies with
  | nil => exact ⟨rfl, rfl⟩
  | cons policy rest ih =>
    have h1 := h policy (List.mem_cons_self _ _)
    have h2 := ih fun q hq => h q (List.mem_cons_of_mem _ hq)
    simp [pureLoop_cons, fetchReached, h1, h2]

theorem fetchReached_applies (E : Extern) (root : String) (policies : List Policy)
    (h : fetchReached E root policies = true) :
    ∃ policy ∈ policies, scopeTest E policy root = .ok true := by
  induction policies with
  | nil => simp [fetchReached] at h
  | cons policy rest ih =>
    rw [fetchReached] at h
    cases hs : scopeTest E policy root with
    | error e => simp [hs] at h
    | ok b =>
      cases b with
      | true => exact ⟨policy, List.mem_cons_self _ _, hs⟩
      | false =>
        simp only [hs] at h
        obtain ⟨q, hq, hqs⟩ := ih h
        exact ⟨q, List.mem_cons_of_mem _ hq, hqs⟩

/-- C9. No fetch for out-of-scope dependencies. When the import resolves to a
dependency, every pattern of the configuration is accepted by the matcher on
its root and no policy applies to the root (the empty policy list included),
the policy loop returns no violation and no error and leaves the state as it
is, so `isBlockedPackage` returns no violation and no error, performs no score
fetch and leaves the score cache unchanged. Conversely, for every call of
`isBlockedPackage` that makes a fetch or changes the score cache, the import
resolved to a dependency to which some policy applies. -/
theorem no_fetch_out_of_scope (E : Extern) (p : Processor) (ctx : Context) (pkg : String)
    (st st1 : State) (dep : Dependency)
    (hdep : ParseDependencyForImportPath E pkg st = (.ok dep, st1))
    (hvalid : ∀ policy ∈ p.Config.Policies, ∀ pat ∈ policy.Include ++ policy.Exclude,
      (E.doublestarMatch (E.toLower pat) (E.toLower dep.Root)).isSome)
    (hnone : ∀ policy ∈ p.Config.Policies, scopeTest E policy dep.Root ≠ .ok true) :
    policyLoop E ctx dep p.Config.Policies [] st1 = (([], none), st1) ∧
    (p.isBlockedPackage E ctx pkg st).1 = ([], none) ∧
    (p.isBlockedPackage E ctx pkg st).2.scorecards = st.scorecards ∧
    (p.isBlockedPackage E ctx pkg st).2.fetches = st.fetches ∧
    (∀ (q : Processor) (ctx0 : Context) (pkg0 : String) (st0 : State),
      ((q.isBlockedPackage E ctx0 pkg0 st0).2.fetches ≠ st0.fetches ∨
        (q.isBlockedPackage E ctx0 pkg0 st0).2.scorecards ≠ st0.scorecards) →
      ∃ dep0, (ParseDependencyForImportPath E pkg0 st0).1 = .ok dep0 ∧
        ∃ policy ∈ q.Config.Policies, scopeTest E policy dep0.Root = .ok true) := by
  have hfalse : ∀ policy ∈ p.Config.Policies, scopeTest E policy dep.Root = .ok false := by
    intro policy hpol
    have hv := scopeTest_valid E policy dep.Root (hvalid policy hpol)
    have hn := hnone policy hpol
    rw [hv] at hn ⊢
    cases hb : ((policy.Include.isEmpty || anyMatch E dep.Root policy.Include)
          && !anyMatch E dep.Root policy.Exclude) with
    | false => rfl
    | true => rw [hb] at hn; exact absurd rfl hn
  have hloop : policyLoop E ctx dep p.Config.Policies [] st1 = (([], none), st1) := by
    obtain ⟨h1, h2⟩ := none_apply E dep (Getter.Get E ctx dep st1).1 _ [] hfalse
    rw [policyLoop_eq, h1, h2]
    rfl
  have hframe := ParseDependencyForImportPath_frame E pkg st
  rw [hdep] at hframe
  have hcall : p.isBlockedPackage E ctx pkg st = (([], none), st)
      ∨ p.isBlockedPackage E ctx pkg st = (([], none), st1) := by
    unfold Processor.isBlockedPackage
    split
    · exact Or.inl rfl
    · split
      · exact Or.inl rfl
      · rw [hdep]
        exact Or.inr hloop
  refine ⟨hloop, ?_, ?_, ?_, ?_⟩
  · rcases hcall with h | h <;> rw [h]
  · rcases hcall with h | h <;> rw [h]
    exact hframe.1
  · rcases hcall with h | h <;> rw [h]
    exact hframe.2
  · intro q ctx0 pkg0 st0 hchange
    unfold Processor.isBlockedPackage at hchange
    split at hchange
    · simp at hchange
    · split at hchange
      · simp at hchange
      · have hfr := ParseDependencyForImportPath_frame E pkg0 st0
        cases hp : ParseDependencyForImportPath E pkg0 st0 with
        | mk r0 s0 =>
          rw [hp] at hchange hfr
          cases r0 with
          | error e =>
            simp only at hchange hfr
            rcases hchange with h | h
            · exact absurd hfr.2 h
            · exact absurd hfr.1 h
          | ok dep0 =>
            simp only at hchange hfr
            refine ⟨dep0, rfl, ?_⟩
            apply fetchReached_applies
            by_contra hnot
            rw [policyLoop_eq] at hchange
            simp only [hnot] at hchange
            rcases hchange with h | h
            · exact absurd hfr.2 h
            · exact absurd hfr.1 h

/-- C9 at a concrete input: the only policy is for another organisation; the
sample import is resolved, and neither a fetch nor a cache entry results. -/
theorem no_fetch_out_of_scope_witness :
    ((sampleProcessor [otherPolicy]).isBlockedPackage sampleExtern 0
        "github.com/org/lib/pkg" State.empty).1 = ([], none) ∧
    ((sampleProcessor [otherPolicy]).isBlockedPackage sampleExtern 0
        "github.com/org/lib/pkg" State.empty).2.scorecards = State.empty.scorecards ∧
    ((sampleProcessor [otherPolicy]).isBlockedPackage sampleExtern 0
        "github.com/org/lib/pkg" State.empty).2.fetches = State.empty.fetches :=
  have h := no_fetch_out_of_scope sampleExtern (sampleProcessor [otherPolicy]) 0
    "github.com/org/lib/pkg" State.empty
    (ParseDependencyForImportPath sampleExtern "github.com/org/lib/pkg" State.empty).2
    sampleDependency (by decide) (by decide) (by decide)
  ⟨h.2.1, h.2.2.1, h.2.2.2.1⟩

/-! ## The gopkg.in rewrite -/

theorem indexList_char_append (c : Char) (a b : List Char) (h : c ∉ a) :
    indexList (a ++ c :: b) [c] = some a.length := by
  induction a with
  | nil => simp [indexList, List.isPrefixOf]
  | cons x a ih =>
    have hx : c ≠ x := fun hcx => h (hcx ▸ List.mem_cons_self _ _)
    have ha : c ∉ a := fun hca => h (List.mem_cons_of_mem _ hca)
    simp [indexList, List.isPrefixOf, hx, ih ha]

theorem indexList_char_none (c : Char) (a : List Char) (h : c ∉ a) :
    indexList a [c] = none := by
  induction a with
  | nil => simp [indexList]
  | cons x a ih =>
    have hx : c ≠ x := fun hcx => h (hcx ▸ List.mem_cons_self _ _)
    have ha : c ∉ a := fun hca => h (List.mem_cons_of_mem _ hca)
    simp [indexList, List.isPrefixOf, hx, ih ha]

theorem stringsCut_char (c : Char) (s sep : String) (a b : List Char)
    (hs : s.data = a ++ c :: b) (hsep : sep.data = [c]) (h : c ∉ a) :
    stringsCut s sep = (⟨a⟩, ⟨b⟩, true) := by
  simp [stringsCut, hs, hsep, indexList_char_append c a b h]

theorem stringsCut_char_none (c : Char) (s sep : String) (hsep : sep.data = [c])
    (h : c ∉ s.data) : stringsCut s sep = (s, "", false) := by
  simp [stringsCut, hsep, indexList_char_none c s.data h]

theorem stringsContains_char (c : Char) (s sep : String) (a b : List Char)
    (hs : s.data = a ++ c :: b) (hsep : sep.data = [c]) (h : c ∉ a) :
    stringsContains s sep = true := by
  simp [stringsContains, hs, hsep, indexList_char_append c a b h]

theorem stringsContains_char_none (c : Char) (s sep : String) (hsep : sep.data = [c])
    (h : c ∉ s.data) : stringsContains s sep = false := by
  simp [stringsContains, hsep, indexList_char_none c s.data h]

theorem trimLeftList_noop (cutset l : List Char) (h : ∀ x ∈ l.head?, x ∉ cutset) :
    trimLeftList cutset l = l := by
  cases l with
  | nil => rfl
  | cons x m =>
    have hx : x ∉ cutset := h x (by simp)
    simp [trimLeftList, hx]

theorem stringsTrim_noop (s cutset : String) (hh : ∀ x ∈ s.data.head?, x ∉ cutset.data)
    (hl : ∀ x ∈ s.data.getLast?, x ∉ cutset.data) :
    stringsTrim s cutset = s := by
  unfold stringsTrim
  rw [trimLeftList_noop cutset.data s.data hh,
    trimLeftList_noop cutset.data s.data.reverse (by simpa using hl), List.reverse_reverse]

theorem getLast_mem_right (a b : List Char) (hb : b ≠ []) :
    ∀ x ∈ (a ++ b).getLast?, x ∈ b := by
  intro x hx
  rw [List.getLast?_append_of_ne_nil _ hb] at hx
  exact List.mem_of_mem_getLast? hx

theorem head_mem_left (a b : List Char) (ha : a ≠ []) :
    ∀ x ∈ (a ++ b).head?, x ∈ a := by
  intro x hx
  cases a with
  | nil => exact absurd rfl ha
  | cons y m =>
    simp at hx
    simp [hx]

theorem data_ne_nil (s : String) (h : s ≠ "") : s.data ≠ [] := by
  intro hd
  apply h
  exact String.ext hd

/-- The organisation/repository split of a path `org/repo` that needs no
trimming. -/
theorem cut_org_repo (org repo : String) (hne : org ≠ "") (hrepo : repo ≠ "")
    (ho : '/' ∉ org.data) (hr : '/' ∉ repo.data) :
    stringsCut (stringsTrim (org ++ "/" ++ repo) "/") "/" = (org, repo, true) := by
  have hdata : (org ++ "/" ++ repo).data = org.data ++ '/' :: repo.data := by
    simp [String.data_append]
  have hsl : ("/" : String).data = ['/'] := rfl
  have htrim : stringsTrim (org ++ "/" ++ repo) "/" = org ++ "/" ++ repo := by
    apply stringsTrim_noop
    · intro x hx
      rw [hdata] at hx
      have hxo := head_mem_left _ _ (data_ne_nil org hne) x hx
      rw [hsl]
      intro hmem
      simp at hmem
      exact ho (hmem ▸ hxo)
    · intro x hx
      rw [hdata] at hx
      have hxr : x ∈ repo.data := by
        have := getLast_mem_right (org.data ++ ['/']) repo.data (data_ne_nil repo hrepo) x
          (by simpa using hx)
        exact this
      rw [hsl]
      intro hmem
      simp at hmem
      exact hr (hmem ▸ hxr)
  rw [htrim, stringsCut_char '/' _ "/" org.data repo.data hdata hsl ho]

theorem indexList_char_isSome (c : Char) (l : List Char) (h : c ∈ l) :
    (indexList l [c]).isSome = true := by
  induction l with
  | nil => simp at h
  | cons x m ih =>
    by_cases hx : c = x
    · simp [indexList, List.isPrefixOf, hx]
    · have hm : c ∈ m := by
        rcases List.mem_cons.1 h with h1 | h1
        · exact absurd h1 hx
        · exact h1
      have := ih hm
      simp only [indexList, List.isPrefixOf]
      split
      · rfl
      · simpa using this

theorem ParseDependencyForImportPath_fresh (E : Extern) (importPath : String) (st : State)
    (h : mapLoad st.cache importPath = none) :
    (ParseDependencyForImportPath E importPath st).1 = resolveDependency E st.lookups importPath := by
  simp [ParseDependencyForImportPath, h]

theorem dependencyOfURL_single (u : URL) (root name suffix : String)
    (hhost : stringsContains u.Host "gopkg.in" = true)
    (hne : name ≠ "") (hdot : '.' ∉ name.data) (hslash : '/' ∉ name.data)
    (hsuf : '/' ∉ suffix.data)
    (hpath : stringsTrim u.Path "/" = name ∨ stringsTrim u.Path "/" = name ++ "." ++ suffix) :
    dependencyOfURL u root = ⟨"", "github.com", "go-" ++ name, name, root⟩ := by
  have hd : (".": String).data = ['.'] := rfl
  have hs : ("/": String).data = ['/'] := rfl
  have hcut : (stringsCut (stringsTrim u.Path "/") ".").1 = name := by
    rcases hpath with h | h
    · rw [h, stringsCut_char_none '.' name "." hd hdot]
    · have hdata : (name ++ "." ++ suffix).data = name.data ++ '.' :: suffix.data := by
        simp [String.data_append]
      rw [h, stringsCut_char '.' _ "." name.data suffix.data hdata hd hdot]
  have hseg : stringsContains (stringsTrim u.Path "/") "/" = false := by
    rcases hpath with h | h
    · rw [h, stringsContains_char_none '/' name "/" hs hslash]
    · rw [h]
      apply stringsContains_char_none '/' _ "/" hs
      simp [String.data_append, hslash, hsuf]
  have hrw : gopkgRewrite u = ⟨"github.com", "go-" ++ name ++ "/" ++ name⟩ := by
    simp [gopkgRewrite, hhost, hcut, hseg]
  have hgo : ("go-" ++ name : String) ≠ "" := by
    intro h
    have := congrArg String.data h
    simp [String.data_append] at this
  have hgos : '/' ∉ ("go-" ++ name : String).data := by
    have : ("go-" : String).data = ['g', 'o', '-'] := rfl
    simp [String.data_append, this, hslash]
  have hcut2 := cut_org_repo ("go-" ++ name) name hgo hne hgos hslash
  simp [dependencyOfURL, hrw, hcut2]

theorem dependencyOfURL_two (u : URL) (root user name suffix : String)
    (hhost : stringsContains u.Host "gopkg.in" = true)
    (hune : user ≠ "") (hudot : '.' ∉ user.data) (huslash : '/' ∉ user.data)
    (hne : name ≠ "") (hdot : '.' ∉ name.data) (hslash : '/' ∉ name.data)
    (hpath : stringsTrim u.Path "/" = user ++ "/" ++ name ++ "." ++ suffix) :
    dependencyOfURL u root = ⟨"", "github.com", user, name, root⟩ := by
  have hd : (".": String).data = ['.'] := rfl
  have hs : ("/": String).data = ['/'] := rfl
  have hdata : (user ++ "/" ++ name ++ "." ++ suffix).data
      = (user ++ "/" ++ name).data ++ '.' :: suffix.data := by
    simp [String.data_append]
  have hnodot : '.' ∉ (user ++ "/" ++ name).data := by
    simp [String.data_append, hudot, hdot]
  have hcut : (stringsCut (stringsTrim u.Path "/") ".").1 = user ++ "/" ++ name := by
    rw [hpath, stringsCut_char '.' _ "." _ suffix.data hdata hd hnodot]
  have hseg : stringsContains (stringsTrim u.Path "/") "/" = true := by
    rw [hpath]
    apply stringsContains_char '/' _ "/" user.data (name.data ++ '.' :: suffix.data) _ hs huslash
    simp [String.data_append]
  have hrw : gopkgRewrite u = ⟨"github.com", user ++ "/" ++ name⟩ := by
    simp [gopkgRewrite, hhost, hcut, hseg]
  simp [dependencyOfURL, hrw, cut_org_repo user name hune hne huslash hslash]

theorem dependencyOfURL_version_first (u : URL) (root first rest : String)
    (hhost : stringsContains u.Host "gopkg.in" = true)
    (hdot : '.' ∉ first.data) (hslash : '/' ∉ first.data)
    (hrest : '/' ∈ rest.data)
    (hpath : stringsTrim u.Path "/" = first ++ "." ++ rest) :
    dependencyOfURL u root = ⟨"", "github.com", first, "", root⟩ := by
  have hd : (".": String).data = ['.'] := rfl
  have hs : ("/": String).data = ['/'] := rfl
  have hdata : (first ++ "." ++ rest).data = first.data ++ '.' :: rest.data := by
    simp [String.data_append]
  have hcut : (stringsCut (stringsTrim u.Path "/") ".").1 = first := by
    rw [hpath, stringsCut_char '.' _ "." first.data rest.data hdata hd hdot]
  have hseg : stringsContains (stringsTrim u.Path "/") "/" = true := by
    rw [hpath]
    unfold stringsContains
    rw [hs]
    apply indexList_char_isSome
    simp [String.data_append, hrest]
  have hrw : gopkgRewrite u = ⟨"github.com", first⟩ := by
    simp [gopkgRewrite, hhost, hcut, hseg]
  have htrim : stringsTrim first "/" = first := by
    apply stringsTrim_noop
    · intro x hx
      have := List.mem_of_mem_head? hx
      rw [hs]
      intro hmem
      simp at hmem
      exact hslash (hmem ▸ this)
    · intro x hx
      have := List.mem_of_mem_getLast? hx
      rw [hs]
      intro hmem
      simp at hmem
      exact hslash (hmem ▸ this)
  simp [dependencyOfURL, hrw, htrim, stringsCut_char_none '/' first "/" hs hslash]

theorem ParseDependencyForImportPath_resolved (E : Extern) (importPath : String) (st : State)
    (repoRoot : RepoRoot) (u : URL)
    (hfresh : mapLoad st.cache importPath = none)
    (hroot : E.repoRootForImportPath st.lookups importPath = .ok repoRoot)
    (hurl : E.urlParse repoRoot.Repo = .ok u) :
    (ParseDependencyForImportPath E importPath st).1 = .ok (dependencyOfURL u repoRoot.Root) := by
  rw [ParseDependencyForImportPath_fresh E importPath st hfresh]
  simp [resolveDependency, hroot, hurl]

/-- C5 fails as stated: on the host `gopkg.in` the path `/foo.v2/bar` gives the
organisation `foo` and an empty repository, not the repository `bar`. -/
theorem gopkg_two_segment_counterexample :
    (ParseDependencyForImportPath selfRootExtern "gopkg.in/foo.v2/bar" State.empty).1
      = .ok ⟨"", "github.com", "foo", "", "gopkg.in/foo.v2/bar"⟩ ∧
    dependencyOfURL ⟨"gopkg.in", "/foo.v2/bar"⟩ "gopkg.in/foo.v2/bar"
      = ⟨"", "github.com", "foo", "", "gopkg.in/foo.v2/bar"⟩ ∧
    (dependencyOfURL ⟨"gopkg.in", "/foo.v2/bar"⟩ "gopkg.in/foo.v2/bar").Repo ≠ "bar" := by
  decide

/-- C5, amended. The rewrite for gopkg.in cuts the trimmed path at its first
`.`, wherever it stands. For a path of two segments `user/name.suffix`, with the
suffix in the last segment and `user` and `name` non-empty and free of `.` and
`/`, `ParseDependencyForImportPath` returns the platform `github.com`, the
organisation `user` and the repository `name`, the non-empty second segment
without its suffix. When the first `.` stands in the first segment, as in
`/foo.v2/bar`, the rest of the path is cut with it: the organisation is the
text before the `.` and the repository is empty. -/
theorem gopkg_two_segment (E : Extern) (importPath : String) (st : State)
    (repoRoot : RepoRoot) (u : URL) (user name suffix : String)
    (hfresh : mapLoad st.cache importPath = none)
    (hroot : E.repoRootForImportPath st.lookups importPath = .ok repoRoot)
    (hurl : E.urlParse repoRoot.Repo = .ok u)
    (hhost : stringsContains u.Host "gopkg.in" = true)
    (hune : user ≠ "") (hudot : '.' ∉ user.data) (huslash : '/' ∉ user.data)
    (hne : name ≠ "") (hdot : '.' ∉ name.data) (hslash : '/' ∉ name.data)
    (hpath : stringsTrim u.Path "/" = user ++ "/" ++ name ++ "." ++ suffix) :
    (ParseDependencyForImportPath E importPath st).1
      = .ok ⟨"", "github.com", user, name, repoRoot.Root⟩ ∧
    dependencyOfURL u repoRoot.Root = ⟨"", "github.com", user, name, repoRoot.Root⟩ ∧
    (dependencyOfURL u repoRoot.Root).Repo ≠ "" ∧
    (∀ (v : URL) (root first rest : String),
      stringsContains v.Host "gopkg.in" = true →
      '.' ∉ first.data → '/' ∉ first.data → '/' ∈ rest.data →
      stringsTrim v.Path "/" = first ++ "." ++ rest →
      dependencyOfURL v root = ⟨"", "github.com", first, "", root⟩) := by
  have h := dependencyOfURL_two u repoRoot.Root user name suffix hhost hune hudot huslash
    hne hdot hslash hpath
  refine ⟨?_, h, ?_, ?_⟩
  · rw [ParseDependencyForImportPath_resolved E importPath st repoRoot u hfresh hroot hurl, h]
  · rw [h]
    exact hne
  · intro v root first rest hv hd hs hr hp
    exact dependencyOfURL_version_first v root first rest hv hd hs hr hp

/-- C5, amended, at a concrete input: the import path `gopkg.in/user/pkg.v3`. -/
theorem gopkg_two_segment_witness :
    (ParseDependencyForImportPath selfRootExtern "gopkg.in/user/pkg.v3" State.empty).1
      = .ok ⟨"", "github.com", "user", "pkg", "gopkg.in/user/pkg.v3"⟩ :=
  (gopkg_two_segment selfRootExtern "gopkg.in/user/pkg.v3" State.empty
    ⟨"https://gopkg.in/user/pkg.v3", "gopkg.in/user/pkg.v3"⟩ ⟨"gopkg.in", "/user/pkg.v3"⟩
    "user" "pkg" "v3" (by decide) (by decide) (by decide) (by decide) (by decide) (by decide)
    (by decide) (by decide) (by decide) (by decide) (by decide)).1

/-- C6. The rewrite for gopkg.in on a path of one segment. When the resolved
repository URL has a host containing `gopkg.in` and a path that, trimmed of
`/`, is `name` or `name.suffix`, with `name` non-empty and free of `.` and `/`
and the suffix free of `/`, `ParseDependencyForImportPath` returns the platform
`github.com`, the organisation `go-` followed by `name`, and the repository
`name`. -/
theorem gopkg_single_segment (E : Extern) (importPath : String) (st : State)
    (repoRoot : RepoRoot) (u : URL) (name suffix : String)
    (hfresh : mapLoad st.cache importPath = none)
    (hroot : E.repoRootForImportPath st.lookups importPath = .ok repoRoot)
    (hurl : E.urlParse repoRoot.Repo = .ok u)
    (hhost : stringsContains u.Host "gopkg.in" = true)
    (hne : name ≠ "") (hdot : '.' ∉ name.data) (hslash : '/' ∉ name.data)
    (hsuf : '/' ∉ suffix.data)
    (hpath : stringsTrim u.Path "/" = name ∨ stringsTrim u.Path "/" = name ++ "." ++ suffix) :
    (ParseDependencyForImportPath E importPath st).1
      = .ok ⟨"", "github.com", "go-" ++ name, name, repoRoot.Root⟩ ∧
    dependencyOfURL u repoRoot.Root
      = ⟨"", "github.com", "go-" ++ name, name, repoRoot.Root⟩ := by
  have h := dependencyOfURL_single u repoRoot.Root name suffix hhost hne hdot hslash hsuf hpath
  exact ⟨by rw [ParseDependencyForImportPath_resolved E importPath st repoRoot u hfresh hroot hurl,
    h], h⟩

/-- C6 at the input of the spec: the path `/yaml.v3` on the host `gopkg.in`
gives the organisation `go-yaml` and the repository `yaml`. -/
theorem gopkg_single_segment_witness :
    (ParseDependencyForImportPath sampleExtern "gopkg.in/yaml.v3" State.empty).1
      = .ok ⟨"", "github.com", "go-yaml", "yaml", "gopkg.in/yaml.v3"⟩ :=
  (gopkg_single_segment sampleExtern "gopkg.in/yaml.v3" State.empty
    ⟨"https://gopkg.in/yaml.v3", "gopkg.in/yaml.v3"⟩ ⟨"gopkg.in", "/yaml.v3"⟩
    "yaml" "v3" (by decide) (by decide) (by decide) (by decide) (by decide) (by decide)
    (by decide) (by decide) (by decide)).1

/-! ## Memoisation in the getter -/

theorem Getter.Get_preserves (E : Extern) (ctx : Context) (dep key : Dependency) (st : State)
    (r : Except Error Score) (h : mapLoad st.scorecards key = some r) :
    mapLoad (Getter.Get E ctx dep st).2.scorecards key = some r := by
  cases hd : mapLoad st.scorecards dep with
  | some r0 => simpa [Getter.Get, hd] using h
  | none =>
    have hne : dep ≠ key := by
      intro heq
      rw [heq, h] at hd
      exact absurd hd (by simp)
    simpa [Getter.Get, hd, mapLoad, hne] using h

theorem Getter.Get_frame (E : Extern) (ctx : Context) (dep key : Dependency) (st : State)
    (hne : key ≠ dep) :
    mapLoad (Getter.Get E ctx dep st).2.scorecards key = mapLoad st.scorecards key := by
  cases hd : mapLoad st.scorecards dep with
  | some r0 => simp [Getter.Get, hd]
  | none => simp [Getter.Get, hd, mapLoad, Ne.symm hne]

theorem Getter.Get_cache (E : Extern) (ctx : Context) (dep : Dependency) (st : State) :
    (Getter.Get E ctx dep st).2.cache = st.cache ∧
    (Getter.Get E ctx dep st).2.lookups = st.lookups := by
  cases hd : mapLoad st.scorecards dep <;> simp [Getter.Get, hd]

theorem runGets_cons (E : Extern) (ctx : Context) (dep : Dependency)
    (rest : List (Context × Dependency)) (st : State) :
    runGets E ((ctx, dep) :: rest) st =
      ((Getter.Get E ctx dep st).1 :: (runGets E rest (Getter.Get E ctx dep st).2).1,
       (runGets E rest (Getter.Get E ctx dep st).2).2) := rfl

theorem runGets_preserves (E : Extern) (calls : List (Context × Dependency)) (key : Dependency)
    (st : State) (r : Except Error Score) (h : mapLoad st.scorecards key = some r) :
    mapLoad (runGets E calls st).2.scorecards key = some r := by
  induction calls generalizing st with
  | nil => exact h
  | cons c rest ih =>
    obtain ⟨ctx, dep⟩ := c
    rw [runGets_cons]
    exact ih _ (Getter.Get_preserves E ctx dep key st r h)

theorem runGets_cached (E : Extern) (calls : List (Context × Dependency)) (key : Dependency)
    (st : State) (r : Except Error Score) (h : mapLoad st.scorecards key = some r)
    (hcalls : ∀ c ∈ calls, c.2 = key) :
    runGets E calls st = (calls.map fun _ => r, st) := by
  induction calls with
  | nil => rfl
  | cons c rest ih =>
    obtain ⟨ctx, dep⟩ := c
    have hdep : dep = key := hcalls (ctx, dep) (List.mem_cons_self _ _)
    subst hdep
    have hrest := ih fun c hc => hcalls c (List.mem_cons_of_mem _ hc)
    rw [runGets_cons, Getter.Get_cached E ctx dep st r h]
    simp [hrest]

theorem runGets_fetches (E : Extern) (calls : List (Context × Dependency)) (st : State) :
    ∃ new, (runGets E calls st).2.fetches = st.fetches ++ new ∧
      (new.map Prod.snd).Nodup ∧
      (∀ d ∈ new.map Prod.snd, mapLoad st.scorecards d = none) ∧
      (∀ c ∈ new, c ∈ calls) := by
  induction calls generalizing st with
  | nil => exact ⟨[], by simp [runGets]⟩
  | cons c rest ih =>
    obtain ⟨ctx, dep⟩ := c
    rw [runGets_cons]
    cases hd : mapLoad st.scorecards dep with
    | some r0 =>
      rw [Getter.Get_cached E ctx dep st r0 hd]
      obtain ⟨new, h1, h2, h3, h4⟩ := ih st
      exact ⟨new, h1, h2, h3, fun c hc => List.mem_cons_of_mem _ (h4 c hc)⟩
    | none =>
      rw [Getter.Get_fresh E ctx dep st hd]
      obtain ⟨new, h1, h2, h3, h4⟩ := ih
        { st with scorecards := (dep, getScoreForDependency E st.fetches ctx dep) :: st.scorecards
                  fetches := st.fetches ++ [(ctx, dep)] }
      simp only at h1 h3
      have hnot : ∀ d ∈ new.map Prod.snd, dep ≠ d ∧ mapLoad st.scorecards d = none := by
        intro d hdm
        have := h3 d hdm
        by_cases hdd : dep = d
        · simp [mapLoad, hdd] at this
        · simpa [mapLoad, hdd] using this
      refine ⟨(ctx, dep) :: new, by simp [h1], ?_, ?_, ?_⟩
      · simp only [List.map_cons, List.nodup_cons]
        exact ⟨fun hmem => (hnot dep hmem).1 rfl, h2⟩
      · intro d hdm
        simp only [List.map_cons, List.mem_cons] at hdm
        rcases hdm with h | h
        · rw [h]; exact hd
        · exact (hnot d h).2
      · intro c hc
        rcases List.mem_cons.1 hc with h | h
        · rw [h]; exact List.mem_cons_self _ _
        · exact List.mem_cons_of_mem _ (h4 c h)

theorem Getter.Get_fetches_length (E : Extern) (ctx : Context) (dep : Dependency) (st : State) :
    (Getter.Get E ctx dep st).2.fetches.length ≤ st.fetches.length + 1 := by
  cases hd : mapLoad st.scorecards dep <;> simp [Getter.Get, hd]

theorem scoreURL_congr (a b : Dependency) (hCommit : a.Commit = b.Commit)
    (hPlatform : a.Platform = b.Platform) (hOrg : a.Org = b.Org) (hRepo : a.Repo = b.Repo) :
    scoreURL a = scoreURL b := by
  simp [scoreURL, hCommit, hPlatform, hOrg, hRepo]

/-- C7 fails as stated: the imports `gopkg.in/yaml.v3` and `gopkg.in/yaml.v2`
resolve to two dependencies that agree on commit, platform, organisation and
repository and differ in their root; `Get` on the one and then on the other
makes two fetches, of the same URL, and returns two different errors. -/
theorem cache_key_counterexample :
    (ParseDependencyForImportPath sampleExtern "gopkg.in/yaml.v3" State.empty).1 = .ok yamlV3 ∧
    (ParseDependencyForImportPath sampleExtern "gopkg.in/yaml.v2" State.empty).1 = .ok yamlV2 ∧
    yamlV3.Commit = yamlV2.Commit ∧ yamlV3.Platform = yamlV2.Platform ∧
    yamlV3.Org = yamlV2.Org ∧ yamlV3.Repo = yamlV2.Repo ∧
    scoreURL yamlV3 = scoreURL yamlV2 ∧
    (runGets sampleExtern [(0, yamlV3), (0, yamlV2)] State.empty).2.fetches
      = [(0, yamlV3), (0, yamlV2)] ∧
    (runGets sampleExtern [(0, yamlV3), (0, yamlV2)] State.empty).1
      = [.error (.noScorecard "gopkg.in/yaml.v3"), .error (.noScorecard "gopkg.in/yaml.v2")] := by
  decide

/-- C7, amended. The score cache is keyed by the whole `Dependency` value, all
five fields. For two dependencies that agree on commit, platform, organisation,
repository and root, every sequence of `Get` calls on them makes at most one
fetch in total and returns one and the same outcome to all calls. Two
dependencies that differ, be it in the root only, are two keys: when neither
is cached, `Get` on the one and on the other makes two fetches; when they
agree on the four other fields both fetches request the same URL. -/
theorem cache_key_identity (E : Extern) (d1 d2 : Dependency)
    (calls : List (Context × Dependency)) (st : State)
    (hCommit : d1.Commit = d2.Commit) (hPlatform : d1.Platform = d2.Platform)
    (hOrg : d1.Org = d2.Org) (hRepo : d1.Repo = d2.Repo) (hRoot : d1.Root = d2.Root)
    (hcalls : ∀ c ∈ calls, c.2 = d1 ∨ c.2 = d2) :
    (runGets E calls st).2.fetches.length ≤ st.fetches.length + 1 ∧
    (∀ r1 ∈ (runGets E calls st).1, ∀ r2 ∈ (runGets E calls st).1, r1 = r2) ∧
    (∀ (a b : Dependency) (ctx1 ctx2 : Context) (s : State), a ≠ b →
      mapLoad s.scorecards a = none → mapLoad s.scorecards b = none →
      (runGets E [(ctx1, a), (ctx2, b)] s).2.fetches = s.fetches ++ [(ctx1, a), (ctx2, b)]) ∧
    (∀ a b : Dependency, a.Commit = b.Commit → a.Platform = b.Platform → a.Org = b.Org →
      a.Repo = b.Repo → scoreURL a = scoreURL b) := by
  have heq : d1 = d2 := by
    cases d1; cases d2; simp_all
  subst heq
  have hall : ∀ c ∈ calls, c.2 = d1 := fun c hc => (hcalls c hc).elim id id
  have hrun : (runGets E calls st).2.fetches.length ≤ st.fetches.length + 1 ∧
      ∃ r, (runGets E calls st).1 = calls.map fun _ => r := by
    cases calls with
    | nil => exact ⟨by simp [runGets], ⟨.error (.statusCode 0), rfl⟩⟩
    | cons c rest =>
      obtain ⟨ctx, dep⟩ := c
      have hdep : dep = d1 := hall (ctx, dep) (List.mem_cons_self _ _)
      subst hdep
      have hrest := runGets_cached E rest dep (Getter.Get E ctx dep st).2 _
        (Getter.Get_stored E ctx dep st) fun c hc => hall c (List.mem_cons_of_mem _ hc)
      rw [runGets_cons, hrest]
      exact ⟨Getter.Get_fetches_length E ctx dep st, ⟨(Getter.Get E ctx dep st).1, rfl⟩⟩
  refine ⟨hrun.1, ?_, ?_, ?_⟩
  · obtain ⟨r, hr⟩ := hrun.2
    intro r1 h1 r2 h2
    rw [hr] at h1 h2
    simp only [List.mem_map] at h1 h2
    obtain ⟨_, _, e1⟩ := h1
    obtain ⟨_, _, e2⟩ := h2
    rw [← e1, ← e2]
  · intro a b ctx1 ctx2 s hab ha hb
    have hb2 : mapLoad (Getter.Get E ctx1 a s).2.scorecards b = none := by
      rw [Getter.Get_frame E ctx1 a b s (Ne.symm hab), hb]
    simp only [runGets_cons, runGets]
    rw [Getter.Get_fresh E ctx2 b _ hb2, Getter.Get_fresh E ctx1 a s ha]
    simp
  · intro a b h1 h2 h3 h4
    exact scoreURL_congr a b h1 h2 h3 h4

/-- C7, amended, at a concrete input: three calls of `Get` on one dependency,
under three contexts, make one fetch. -/
theorem cache_key_identity_witness :
    (runGets sampleExtern [(0, sampleDependency), (1, sampleDependency), (2, sampleDependency)]
      State.empty).2.fetches.length ≤ State.empty.fetches.length + 1 :=
  (cache_key_identity sampleExtern sampleDependency sampleDependency
    [(0, sampleDependency), (1, sampleDependency), (2, sampleDependency)] State.empty
    rfl rfl rfl rfl rfl (by decide)).1

/-! ## Replay -/

theorem ParseDependencyForImportPath_cached (E : Extern) (importPath : String) (st : State)
    (r : Except Error Dependency) (h : mapLoad st.cache importPath = some r) :
    ParseDependencyForImportPath E importPath st = (r, st) := by
  simp [ParseDependencyForImportPath, h]

theorem ParseDependencyForImportPath_stored (E : Extern) (importPath : String) (st : State) :
    mapLoad (ParseDependencyForImportPath E importPath st).2.cache importPath
      = some (ParseDependencyForImportPath E importPath st).1 := by
  cases h : mapLoad st.cache importPath with
  | some r => simp [ParseDependencyForImportPath, h]
  | none => simp [ParseDependencyForImportPath, h, mapLoad]

theorem pureLoop_not_reached (E : Extern) (dep : Dependency) (r r' : Except Error Score)
    (policies : List Policy) (reasons : List BlockReason)
    (h : fetchReached E dep.Root policies = false) :
    pureLoop E dep r policies reasons = pureLoop E dep r' policies reasons := by
  induction policies with
  | nil => rfl
  | cons policy rest ih =>
    rw [fetchReached] at h
    rw [pureLoop_cons, pureLoop_cons]
    cases hs : scopeTest E policy dep.Root with
    | error e => rfl
    | ok b =>
      cases b with
      | true => simp [hs] at h
      | false =>
        simp only [hs] at h
        exact ih h

theorem policyLoop_replay (E : Extern) (ctx ctx' : Context) (dep : Dependency)
    (policies : List Policy) (reasons : List BlockReason) (st : State) :
    policyLoop E ctx' dep policies reasons (policyLoop E ctx dep policies reasons st).2
      = policyLoop E ctx dep policies reasons st ∧
    (policyLoop E ctx dep policies reasons st).2.cache = st.cache := by
  rw [policyLoop_eq E ctx dep policies reasons st]
  cases hr : fetchReached E dep.Root policies with
  | true =>
    simp only [↓reduceIte]
    exact ⟨policyLoop_cached E ctx' dep _ policies reasons _ (Getter.Get_stored E ctx dep st),
      (Getter.Get_cache E ctx dep st).1⟩
  | false =>
    simp only [Bool.false_eq_true, ↓reduceIte, and_true]
    rw [policyLoop_eq, hr, pureLoop_not_reached E dep _ (Getter.Get E ctx dep st).1 _ _ hr]
    rfl

theorem isBlockedPackage_replay (E : Extern) (p : Processor) (ctx ctx' : Context) (pkg : String)
    (st : State) :
    p.isBlockedPackage E ctx' pkg (p.isBlockedPackage E ctx pkg st).2
      = p.isBlockedPackage E ctx pkg st := by
  unfold Processor.isBlockedPackage
  by_cases hdot : stringsContains pkg "." = true
  · by_cases hmod : stringsHasPrefix pkg p.ModPath = true
    · simp [hdot, hmod]
    · simp only [hdot, hmod, Bool.not_true, Bool.false_eq_true, ↓reduceIte]
      have hstored := ParseDependencyForImportPath_stored E pkg st
      cases hp : ParseDependencyForImportPath E pkg st with
      | mk rd st1 =>
        rw [hp] at hstored
        cases rd with
        | error e =>
          simp only
          rw [ParseDependencyForImportPath_cached E pkg st1 _ hstored]
        | ok dep =>
          simp only
          obtain ⟨h1, h2⟩ := policyLoop_replay E ctx ctx' dep p.Config.Policies [] st1
          rw [ParseDependencyForImportPath_cached E pkg _ (.ok dep) (by rw [h2]; exact hstored)]
          exact h1
  · simp [hdot]

/-- C8. Sequential memoisation and replay, with the getter as a map from
`Dependency` to the stored outcome. In every sequence of `Get` calls, from
every state, each dependency is fetched at most once, and only if it was not
stored before; from the state of a fresh process each dependency occurs at
most once in the log of fetches. After a `Get` on a dependency, every later
`Get` on it, under any context and after any other calls, returns the outcome
of the first and leaves the state as it is, so it fetches nothing. `Get`
changes the stored outcome of no key: the entries of the other keys are as
before, and an outcome that is stored stays. A second call of
`isBlockedPackage` on the same import, under any context, returns the result
of the first and leaves the state, with its log of fetches, as it is. -/
theorem memoization_replay (E : Extern) :
    (∀ (calls : List (Context × Dependency)) (st : State),
      ∃ new, (runGets E calls st).2.fetches = st.fetches ++ new ∧
        (∀ d, (new.map Prod.snd).count d ≤ 1) ∧
        (∀ d ∈ new.map Prod.snd, mapLoad st.scorecards d = none)) ∧
    (∀ (calls : List (Context × Dependency)) (d : Dependency),
      ((runGets E calls State.empty).2.fetches.map Prod.snd).count d ≤ 1) ∧
    (∀ (ctx ctx' : Context) (d : Dependency) (calls : List (Context × Dependency)) (st : State),
      Getter.Get E ctx' d (runGets E calls (Getter.Get E ctx d st).2).2
        = ((Getter.Get E ctx d st).1, (runGets E calls (Getter.Get E ctx d st).2).2)) ∧
    (∀ (ctx : Context) (d key : Dependency) (st : State), key ≠ d →
      mapLoad (Getter.Get E ctx d st).2.scorecards key = mapLoad st.scorecards key) ∧
    (∀ (ctx : Context) (d key : Dependency) (st : State) (r : Except Error Score),
      mapLoad st.scorecards key = some r →
      mapLoad (Getter.Get E ctx d st).2.scorecards key = some r) ∧
    (∀ (p : Processor) (ctx ctx' : Context) (pkg : String) (st : State),
      p.isBlockedPackage E ctx' pkg (p.isBlockedPackage E ctx pkg st).2
        = ((p.isBlockedPackage E ctx pkg st).1, (p.isBlockedPackage E ctx pkg st).2)) := by
  refine ⟨?_, ?_, ?_, ?_, ?_, ?_⟩
  · intro calls st
    obtain ⟨new, h1, h2, h3, _⟩ := runGets_fetches E calls st
    exact ⟨new, h1, fun d => List.nodup_iff_count_le_one.1 h2 d, h3⟩
  · intro calls d
    obtain ⟨new, h1, h2, _, _⟩ := runGets_fetches E calls State.empty
    rw [h1]
    simpa [State.empty] using List.nodup_iff_count_le_one.1 h2 d
  · intro ctx ctx' d calls st
    exact Getter.Get_cached E ctx' d _ _
      (runGets_preserves E calls d _ _ (Getter.Get_stored E ctx d st))
  · intro ctx d key st hne
    exact Getter.Get_frame E ctx d key st hne
  · intro ctx d key st r h
    exact Getter.Get_preserves E ctx d key st r h
  · intro p ctx ctx' pkg st
    exact isBlockedPackage_replay E p ctx ctx' pkg st

/-- C8 at a concrete input: a second evaluation of the sample import, under
another context, returns the violation of the first and leaves the state of
the first, whose log holds one fetch. -/
theorem memoization_replay_witness :
    (sampleProcessor [minScorePolicy]).isBlockedPackage sampleExtern 1 "github.com/org/lib/pkg"
        ((sampleProcessor [minScorePolicy]).isBlockedPackage sampleExtern 0
          "github.com/org/lib/pkg" State.empty).2
      = (([⟨"github.com/org/lib", "min score", .finite 5, "", .finite 7⟩], none),
          ((sampleProcessor [minScorePolicy]).isBlockedPackage sampleExtern 0
            "github.com/org/lib/pkg" State.empty).2) ∧
    ((sampleProcessor [minScorePolicy]).isBlockedPackage sampleExtern 0
        "github.com/org/lib/pkg" State.empty).2.fetches = [(0, sampleDependency)] :=
  ⟨((memoization_replay sampleExtern).2.2.2.2.2 (sampleProcessor [minScorePolicy]) 0 1
      "github.com/org/lib/pkg" State.empty).trans (by decide),
   by decide⟩

/-! ## The skip rule -/

theorem isBlockedPackage_skip (E : Extern) (p : Processor) (ctx : Context) (pkg : String)
    (st : State) (h : stringsContains pkg "." = false ∨ stringsHasPrefix pkg p.ModPath = true) :
    p.isBlockedPackage E ctx pkg st = (([], none), st) := by
  unfold Processor.isBlockedPackage
  rcases h with h | h
  · simp [h]
  · simp [h]

/-- C11 fails on the code. The test for the same module is a plain
`strings.HasPrefix` on the module path, without a check of the `/` boundary.
For the module `github.com/org/li`, the path `github.com/org/lib/pkg` of another
module contains a `.`, is not the module path and does not extend it at a `/`,
and is skipped all the same: no violation, no error, and the state as before,
without lookup or fetch. The same call for the module `example.com/me`
resolves the path, fetches the score and reports a violation. -/
theorem skip_rule_prefix_without_boundary :
    stringsContains "github.com/org/lib/pkg" "." = true ∧
    ("github.com/org/lib/pkg" : String) ≠ "github.com/org/li" ∧
    stringsHasPrefix "github.com/org/lib/pkg" ("github.com/org/li" ++ "/") = false ∧
    stringsHasPrefix "github.com/org/lib/pkg" "github.com/org/li" = true ∧
    (⟨⟨[minScorePolicy]⟩, "github.com/org/li"⟩ : Processor).isBlockedPackage sampleExtern 0
        "github.com/org/lib/pkg" State.empty = (([], none), State.empty) ∧
    ((sampleProcessor [minScorePolicy]).isBlockedPackage sampleExtern 0
        "github.com/org/lib/pkg" State.empty).1
      = ([⟨"github.com/org/lib", "min score", .finite 5, "", .finite 7⟩], none) ∧
    ((sampleProcessor [minScorePolicy]).isBlockedPackage sampleExtern 0
        "github.com/org/lib/pkg" State.empty).2.lookups = ["github.com/org/lib/pkg"] ∧
    ((sampleProcessor [minScorePolicy]).isBlockedPackage sampleExtern 0
        "github.com/org/lib/pkg" State.empty).2.fetches = [(0, sampleDependency)] := by
  decide

end GoScorecardCheck
